import Mathlib

/-!
# dynamic_memory: the repository / weak_pointer storage manager

A shallow embedding of `include/dynamicmemory/repository.h` and
`include/dynamicmemory/weak_pointer.h`.

* `std::vector<X>` is a `List X`; `v.at(i)` outside the vector throws
  (`Fault.out_of_range`), `v[i]` and `v.erase(v.begin()+i)` outside the vector
  are undefined behaviour (`Fault.undefined`).
* `size_t` is a `Nat` with explicit reduction modulo `2^64` wherever the source
  increments, decrements or adds.
* `std::unordered_set<size_t>` and `std::set<size_t>` are `Finset Nat`;
  `std::map<size_t, std::unordered_set<size_t>>` is a key-ordered association
  list.
* `assert(e)` with `e` false is `Fault.assertion`.
* A member function that mutates the repository returns the new repository in
  `Except Fault`; a `const` member function is a function of the repository.
-/

namespace DynamicMemory

/-- Ways in which a call can fail to return normally. -/
inductive Fault where
  /-- An `assert` of the source fails. -/
  | assertion
  /-- The call `std::vector::at` throws `std::out_of_range`. -/
  | out_of_range
  /-- Unchecked access outside a container, or a null pointer dereference. -/
  | undefined
  /-- The disposal loop of the embedding was given too few iterations (never happens,
  see `attempt_dispose_element_fuel`). -/
  | out_of_fuel
  deriving DecidableEq, Repr

/-- Number of values of a `size_t`. -/
def SIZE_MOD : Nat := 2 ^ 64

/-- The `size_t` operation `x - 1` (also `x--`). -/
def size_dec (x : Nat) : Nat := (x + (SIZE_MOD - 1)) % SIZE_MOD

/-- The `size_t` operation `x + 1` (also `x++`). -/
def size_inc (x : Nat) : Nat := (x + 1) % SIZE_MOD

/-- Checked vector access `v.at(i)`. -/
def vec_at {α : Type} (v : List α) (i : Nat) : Except Fault α :=
  match v[i]? with
  | some x => .ok x
  | none => .error .out_of_range

/-- Unchecked vector access `v[i]`. -/
def vec_index {α : Type} (v : List α) (i : Nat) : Except Fault α :=
  match v[i]? with
  | some x => .ok x
  | none => .error .undefined

/-- The type `std::map<size_t, std::unordered_set<size_t>>`, entries in key order. -/
abbrev AliasMap := List (Nat × Finset Nat)

/-- The lookup `m.find(k)`: the set stored under key `k`, if the key is present. -/
def map_find : AliasMap → Nat → Option (Finset Nat)
  | [], _ => none
  | (k', s) :: rest, k => if k' = k then some s else map_find rest k

/-- The statement `m[k].emplace(x)`: creates the key with an empty set when it is absent,
then inserts `x` into the set of `k`. -/
def map_emplace : AliasMap → Nat → Nat → AliasMap
  | [], k, x => [(k, {x})]
  | (k', s) :: rest, k, x =>
    if k < k' then (k, {x}) :: (k', s) :: rest
    else if k = k' then (k', insert x s) :: rest
    else (k', s) :: map_emplace rest k x

/-- In-place update of the set stored under key `k` (through the iterator returned by
`find`). -/
def map_update : AliasMap → Nat → (Finset Nat → Finset Nat) → AliasMap
  | [], _, _ => []
  | (k', s) :: rest, k, f =>
    if k' = k then (k', f s) :: rest else (k', s) :: map_update rest k f

/-- The call `m.insert(e)` of `std::map`: adds the entry unless its key is present. -/
def map_insert : AliasMap → Nat × Finset Nat → AliasMap
  | [], e => [e]
  | (k', s) :: rest, e =>
    if e.1 < k' then e :: (k', s) :: rest
    else if e.1 = k' then (k', s) :: rest
    else (k', s) :: map_insert rest e

/-- The class `repository<T>`. -/
structure repository (T : Type) where
  /-- Vector that is actually storing the allocated values (the Arena). -/
  contiguous_memory : List T
  /-- Reference counters, one for each strong pointer. -/
  contiguous_memory_reference_count : List Nat
  /-- Strong pointers (the Handle Table): an offset within the contiguous memory, or null. -/
  strong_pointers : List (Option Nat)
  /-- For each offset of the contiguous memory, the strong pointers pointing to it. -/
  contiguous_memory_to_multimap : AliasMap
  /-- Strong pointers waiting to be disposed. -/
  toDispose : Finset Nat
  deriving DecidableEq

/-- The class `weak_pointer<T>`. The development has one repository, so the pointer
`element` is kept as the flag "is not null". -/
structure weak_pointer where
  /-- Whether `element` points to the repository (`false`: `element` is null). -/
  element : Bool
  /-- Vector position for the current element in the strong pointer holder. -/
  strong_ptr_pos : Nat
  deriving DecidableEq, Repr

variable {T : Type}

/-- A freshly constructed repository. -/
def repository.empty : repository T :=
  { contiguous_memory := [], contiguous_memory_reference_count := [],
    strong_pointers := [], contiguous_memory_to_multimap := [], toDispose := ∅ }

/-- The method `repository::clear`. The pending set is not touched. -/
def repository.clear (r : repository T) : repository T :=
  { r with contiguous_memory_to_multimap := [], strong_pointers := [],
           contiguous_memory_reference_count := [], contiguous_memory := [] }

/-- The method `repository::resolveToStrongPointer`. -/
def repository.resolveToStrongPointer (r : repository T) (ptr : Nat) : Except Fault (Option Nat) :=
  if r.strong_pointers.length ≤ ptr then .ok none
  else vec_at r.strong_pointers ptr

/-- The method `repository::resolveStrongPointer`; the returned `T*` is the value it
points to, `none` for `nullptr`. -/
def repository.resolveStrongPointer (r : repository T) (ref : Option Nat) : Except Fault (Option T) :=
  match ref with
  | some x =>
    if r.contiguous_memory.length > x then
      (vec_at r.contiguous_memory x).map some
    else .ok none
  | none => .ok none

/-- The method `repository::resolvePointer`. -/
def repository.resolvePointer (r : repository T) (ptr : Nat) : Except Fault (Option T) :=
  if r.strong_pointers.length ≤ ptr then .ok none
  else do
    let ref ← vec_at r.strong_pointers ptr
    repository.resolveStrongPointer r ref

/-- The method `repository::strongPointerEquality`; the `operator==` of `T` is the
decidable equality of `T`. -/
def repository.strongPointerEquality [DecidableEq T] (r : repository T) (left right : Nat) :
    Except Fault Bool := do
  let oleft ← vec_index r.strong_pointers left
  let oright ← vec_index r.strong_pointers right
  if left = right then pure true
  else if oleft = oright then pure true
  else
    match oleft, oright with
    | some a, some b => do
      let x ← vec_index r.contiguous_memory a
      let y ← vec_index r.contiguous_memory b
      pure (decide (x = y))
    | _, _ => pure false

/-- The method `repository::increment`. -/
def repository.increment (r : repository T) (ptr : Nat) : Except Fault (repository T) :=
  if r.contiguous_memory_reference_count.length ≠ r.strong_pointers.length then
    .error .assertion
  else if ptr < r.strong_pointers.length then do
    let c ← vec_index r.contiguous_memory_reference_count ptr
    pure { r with contiguous_memory_reference_count :=
                    r.contiguous_memory_reference_count.set ptr (size_inc c) }
  else pure r

/-- The method `repository::getReferenceCounterToVal`: the alias set is looked up under
the key `strong`, as in the source; the sum is a `size_t`. -/
def repository.getReferenceCounterToVal (r : repository T) (strong : Nat) : Except Fault Nat := do
  let x ← vec_at r.strong_pointers strong
  match x with
  | some _ =>
    match map_find r.contiguous_memory_to_multimap strong with
    | none => .error .assertion
    | some s =>
      if ∀ k ∈ s, k < r.contiguous_memory_reference_count.length then
        pure ((s.sum fun k => r.contiguous_memory_reference_count.getD k 0) % SIZE_MOD)
      else .error .undefined
  | none => pure 0

/-- The set `values` built by `dispose_strong_ponter` from one alias set: members above
`left` move down by one, `left` itself is dropped, members below stay. -/
def shift_set (left : Nat) (s : Finset Nat) : Finset Nat :=
  (s.filter fun x => left < x).image (fun x => x - 1) ∪ s.filter fun x => x < left

/-- The method `repository::dispose_strong_ponter`. -/
def repository.dispose_strong_ponter (r : repository T) (left : Nat) : Except Fault (repository T) :=
  if left < r.strong_pointers.length ∧ left < r.contiguous_memory_reference_count.length then
    pure { r with
      strong_pointers := r.strong_pointers.eraseIdx left
      contiguous_memory_reference_count := r.contiguous_memory_reference_count.eraseIdx left
      contiguous_memory_to_multimap :=
        r.contiguous_memory_to_multimap.filterMap fun e =>
          if shift_set left e.2 = ∅ then none else some (e.1, shift_set left e.2) }
  else .error .undefined

/-- The method `repository::dispose_value`. The loop over `toInsert` visits an
unordered set; the embedding reports a strong pointer outside the table before a null
one. -/
def repository.dispose_value (r : repository T) (pos : Nat) : Except Fault (repository T) := do
  let c ← vec_index r.contiguous_memory_reference_count pos
  if c ≠ 0 then .error .assertion
  else if ¬ pos < r.contiguous_memory.length then .error .assertion
  else
    let erased := r.contiguous_memory_to_multimap.filter fun e => e.1 ≠ pos
    let upper := erased.filter fun e => pos < e.1
    let toInsert : Finset Nat := upper.foldr (fun e acc => e.2 ∪ acc) ∅
    let multimap2 : AliasMap := upper.map fun e => (e.1 - 1, e.2)
    let lower := erased.filter fun e => ¬ pos < e.1
    if ¬ ∀ k ∈ toInsert, k < r.strong_pointers.length then .error .out_of_range
    else if ¬ ∀ k ∈ toInsert, r.strong_pointers.getD k none ≠ none then .error .assertion
    else
      pure { r with
        contiguous_memory := r.contiguous_memory.eraseIdx pos
        strong_pointers :=
          r.strong_pointers.enum.map fun p =>
            if p.1 ∈ toInsert then p.2.map size_dec else p.2
        contiguous_memory_to_multimap := multimap2.foldl map_insert lower }

/-- The block `if (ref) { ... }` in the loop of `attempt_dispose_element`: looks up the
alias set of the pointed value, erases `left` from it, and returns the repository together
with `hasDisposed` and `valDisposed`. -/
def repository.dispose_alias (r : repository T) (left : Nat) (ref : Option Nat) :
    Except Fault (repository T × Bool × Nat) :=
  match ref with
  | some a =>
    match map_find r.contiguous_memory_to_multimap a with
    | none => .error .assertion
    | some s =>
      if s.card = 1 ∧ left ∉ s then .error .assertion
      else
        .ok ({ r with contiguous_memory_to_multimap :=
                        map_update r.contiguous_memory_to_multimap a fun t => t.erase left },
             decide (s.card = 1), a)
  | none => .ok (r, false, 0)

/-- One pass of the `while` loop of `attempt_dispose_element` on the greatest pending
strong pointer `left`, up to and including the calls of `dispose_strong_ponter` and
`dispose_value`. -/
def repository.dispose_step (r : repository T) (left : Nat) : Except Fault (repository T) := do
  let ref ← vec_at r.strong_pointers left
  let (r1, hasDisposed, valDisposed) ← r.dispose_alias left ref
  let r2 ← r1.dispose_strong_ponter left
  if hasDisposed then r2.dispose_value valDisposed else pure r2

/-- The `while` loop of `attempt_dispose_element`, with a bound on the number of passes. -/
def repository.dispose_loop : Nat → repository T → Except Fault (repository T)
  | 0, _ => .error .out_of_fuel
  | fuel + 1, r =>
    if r.toDispose.max = WithBot.some (size_dec r.strong_pointers.length) then do
      let left := size_dec r.strong_pointers.length
      let r3 ← repository.dispose_step r left
      repository.dispose_loop fuel { r3 with toDispose := r3.toDispose.erase left }
    else pure r

/-- The method `repository::attempt_dispose_element`. Every pass of the loop removes one
strong pointer, so `strong_pointers.size() + 1` passes are enough. -/
def repository.attempt_dispose_element (r : repository T) (x : Nat) : Except Fault (repository T) :=
  repository.dispose_loop (r.strong_pointers.length + 1) { r with toDispose := insert x r.toDispose }

/-- The method `repository::decrement`. -/
def repository.decrement (r : repository T) (ptr : Nat) : Except Fault (repository T) :=
  if r.contiguous_memory_reference_count.length ≠ r.strong_pointers.length then
    .error .assertion
  else do
    let r1 ←
      (if ptr < r.strong_pointers.length then do
        let c ← vec_index r.contiguous_memory_reference_count ptr
        pure { r with contiguous_memory_reference_count :=
                        r.contiguous_memory_reference_count.set ptr (size_dec c) }
      else pure r : Except Fault (repository T))
    let c ← vec_index r1.contiguous_memory_reference_count ptr
    if c = 0 then repository.attempt_dispose_element r1 ptr else pure r1

/-- The method `repository::setGlobal`. -/
def repository.setGlobal (r : repository T) (left right : Nat) : Except Fault (repository T) := do
  let r1 ← repository.attempt_dispose_element r left
  let v ← vec_index r1.strong_pointers right
  if ¬ left < r1.strong_pointers.length then .error .undefined
  else
    let r2 := { r1 with strong_pointers := r1.strong_pointers.set left v }
    let x ← vec_index r2.strong_pointers right
    let r3 :=
      match x with
      | some a =>
        { r2 with contiguous_memory_to_multimap :=
                    map_emplace r2.contiguous_memory_to_multimap a left }
      | none => r2
    pure { r3 with toDispose := r3.toDispose.erase left }

/-- The constructor `weak_pointer(repository<T>*, size_t)`. -/
def weak_pointer.ctor (r : repository T) (element : Bool) (strongPtrPos : Nat) :
    Except Fault (repository T × weak_pointer) := do
  let r1 ← if element then repository.increment r strongPtrPos else pure r
  pure (r1, { element := element, strong_ptr_pos := strongPtrPos })

/-- The copy constructor of `weak_pointer`. -/
def weak_pointer.copy (r : repository T) (copy : weak_pointer) :
    Except Fault (repository T × weak_pointer) :=
  weak_pointer.ctor r copy.element copy.strong_ptr_pos

/-- The destructor of `weak_pointer`. -/
def weak_pointer.dtor (r : repository T) (self : weak_pointer) : Except Fault (repository T) :=
  if self.element then repository.decrement r self.strong_ptr_pos else pure r

/-- The method `weak_pointer::get`. -/
def weak_pointer.get (r : repository T) (self : weak_pointer) : Except Fault (Option T) :=
  if self.element then repository.resolvePointer r self.strong_ptr_pos else pure none

/-- The method `weak_pointer::setGlobal`. -/
def weak_pointer.setGlobal (r : repository T) (self ptr : weak_pointer) :
    Except Fault (repository T × weak_pointer) :=
  if ¬ self.element then .error .assertion
  else if ¬ ptr.element then .error .assertion
  else do
    let r1 ← repository.setGlobal r self.strong_ptr_pos ptr.strong_ptr_pos
    pure (r1, { self with element := ptr.element })

/-- The method `weak_pointer::resolveStrongPonter`. -/
def weak_pointer.resolveStrongPonter (r : repository T) (self : weak_pointer) :
    Except Fault (Option Nat) :=
  if self.element then repository.resolveToStrongPointer r self.strong_ptr_pos else pure none

/-- The method `weak_pointer::getReferenceCounterToVal`. -/
def weak_pointer.getReferenceCounterToVal (r : repository T) (self : weak_pointer) :
    Except Fault Nat :=
  if self.element then repository.getReferenceCounterToVal r self.strong_ptr_pos else pure 1

/-- The operator `weak_pointer::operator==`. -/
def weak_pointer.eq [DecidableEq T] (r : repository T) (self rhs : weak_pointer) :
    Except Fault Bool :=
  if self.element = rhs.element then
    if self.strong_ptr_pos = rhs.strong_ptr_pos then pure true
    else if self.element then repository.strongPointerEquality r self.strong_ptr_pos rhs.strong_ptr_pos
    else .error .undefined
  else pure false

/-- The method `repository::new_element` for a value whose construction does not call
back into the repository; the returned handle is constructed by
`weak_pointer(this, newMHP)`. The vector holds the new value when `newPos` is computed, so
`size() - 1` does not wrap. -/
def repository.new_element (r : repository T) (v : T) : Except Fault (repository T × weak_pointer) :=
  let memory := r.contiguous_memory ++ [v]
  let newPos := memory.length - 1
  let newMHP := r.strong_pointers.length
  weak_pointer.ctor
    { r with
      contiguous_memory := memory
      contiguous_memory_reference_count := r.contiguous_memory_reference_count ++ [0]
      strong_pointers := r.strong_pointers ++ [some newPos]
      contiguous_memory_to_multimap := map_emplace r.contiguous_memory_to_multimap newPos newMHP }
    true newMHP

/-- The method `repository::new_null_pointer`. -/
def repository.new_null_pointer (r : repository T) : Except Fault (repository T × weak_pointer) :=
  let newMHP := r.strong_pointers.length
  weak_pointer.ctor
    { r with
      contiguous_memory_reference_count := r.contiguous_memory_reference_count ++ [0]
      strong_pointers := r.strong_pointers ++ [none] }
    true newMHP

/-- The method `repository::set_new_element`, for a value whose construction does not
call back into the repository: the body repeats the statements of `new_element`, builds
the local handle `element`, retargets `ptr` to it, and `element` is destroyed when the
method returns. -/
def repository.set_new_element (r : repository T) (ptr : weak_pointer) (v : T) :
    Except Fault (repository T × weak_pointer) := do
  let memory := r.contiguous_memory ++ [v]
  let newPos := memory.length - 1
  let newMHP := r.strong_pointers.length
  let (r1, element) ← weak_pointer.ctor
    { r with
      contiguous_memory := memory
      contiguous_memory_reference_count := r.contiguous_memory_reference_count ++ [0]
      strong_pointers := r.strong_pointers ++ [some newPos]
      contiguous_memory_to_multimap := map_emplace r.contiguous_memory_to_multimap newPos newMHP }
    true newMHP
  let (r2, ptr2) ← weak_pointer.setGlobal r1 ptr element
  let r3 ← weak_pointer.dtor r2 element
  pure (r3, ptr2)

/-- The sequence that the specification gives for `replaceWith(p, v)`: `h = create(v)`,
then `retarget(p, h)`, then the drop of `h`. -/
def replaceWith_sequence (r : repository T) (p : weak_pointer) (v : T) :
    Except Fault (repository T × weak_pointer) := do
  let (r1, h) ← r.new_element v
  let (r2, p2) ← weak_pointer.setGlobal r1 p h
  let r3 ← weak_pointer.dtor r2 h
  pure (r3, p2)

/-- Well-formed repository states: the invariants of the data model. The counters are
as many as the strong pointers, every number fits a `size_t`, the keys of the alias map
are in order, every strong pointer with a target points inside the contiguous memory and
is listed under its target, every alias set is not empty and lists only strong pointers
of its key, and every pending strong pointer is below the last one. -/
structure repository.WF (r : repository T) : Prop where
  counts_length : r.contiguous_memory_reference_count.length = r.strong_pointers.length
  pointers_size : r.strong_pointers.length < SIZE_MOD
  memory_size : r.contiguous_memory.length < SIZE_MOD
  counts_size : ∀ c ∈ r.contiguous_memory_reference_count, c < SIZE_MOD
  keys_sorted : (r.contiguous_memory_to_multimap.map Prod.fst).Sorted (· < ·)
  target_lt : ∀ i a : Nat, r.strong_pointers[i]? = some (some a) → a < r.contiguous_memory.length
  target_mem : ∀ i a : Nat, r.strong_pointers[i]? = some (some a) →
    ∃ s, map_find r.contiguous_memory_to_multimap a = some s ∧ i ∈ s
  alias_nonempty : ∀ e ∈ r.contiguous_memory_to_multimap, e.2.Nonempty
  alias_target : ∀ e ∈ r.contiguous_memory_to_multimap, ∀ i ∈ e.2,
    r.strong_pointers[i]? = some (some e.1)
  pending_lt : ∀ p ∈ r.toDispose, p + 1 < r.strong_pointers.length

/-- A repository with two equal values held by two strong pointers, a null strong
pointer, and the first strong pointer pending: the state after `new_element(5)`,
`new_element(5)`, `new_null_pointer()` and the drop of the first handle. -/
def sample_repository : repository Nat :=
  { contiguous_memory := [5, 5]
    contiguous_memory_reference_count := [0, 1, 1]
    strong_pointers := [some 0, some 1, none]
    contiguous_memory_to_multimap := [(0, {0}), (1, {1})]
    toDispose := {0} }

/-- Repositories reachable from the empty one by the operations of the class, each with
any arguments: `new_element`, `new_null_pointer`, `set_new_element`, `increment`,
`decrement` (with the disposal it triggers), `setGlobal` and `clear`. The copy and the drop
of a handle are `increment` and `decrement`. -/
inductive repository.Reachable : repository T → Prop
  | empty : repository.Reachable repository.empty
  | new_element {r r1 : repository T} {h : weak_pointer} (v : T) :
    repository.Reachable r → r.new_element v = .ok (r1, h) → repository.Reachable r1
  | new_null_pointer {r r1 : repository T} {h : weak_pointer} :
    repository.Reachable r → r.new_null_pointer = .ok (r1, h) → repository.Reachable r1
  | set_new_element {r r1 : repository T} {h : weak_pointer} (ptr : weak_pointer) (v : T) :
    repository.Reachable r → r.set_new_element ptr v = .ok (r1, h) →
      repository.Reachable r1
  | increment {r r1 : repository T} (ptr : Nat) :
    repository.Reachable r → r.increment ptr = .ok r1 → repository.Reachable r1
  | decrement {r r1 : repository T} (ptr : Nat) :
    repository.Reachable r → r.decrement ptr = .ok r1 → repository.Reachable r1
  | setGlobal {r r1 : repository T} (left right : Nat) :
    repository.Reachable r → r.setGlobal left right = .ok r1 → repository.Reachable r1
  | clear {r : repository T} : repository.Reachable r → repository.Reachable r.clear

/-- The record of one pass of the loop of `attempt_dispose_element`: the strong pointer
`left` disposed by the pass, and the sizes of `strong_pointers` and `contiguous_memory`
before and after the pass. -/
structure Pass where
  left : Nat
  pointers_before : Nat
  pointers_after : Nat
  memory_before : Nat
  memory_after : Nat
  deriving DecidableEq, Repr

/-- The loop `repository.dispose_loop` together with the record of its passes, first pass
first. -/
def repository.dispose_loop_trace : Nat → repository T → Except Fault (repository T × List Pass)
  | 0, _ => .error .out_of_fuel
  | fuel + 1, r =>
    if r.toDispose.max = WithBot.some (size_dec r.strong_pointers.length) then do
      let left := size_dec r.strong_pointers.length
      let r3 ← repository.dispose_step r left
      let (r4, passes) ←
        repository.dispose_loop_trace fuel { r3 with toDispose := r3.toDispose.erase left }
      pure (r4,
        { left := left
          pointers_before := r.strong_pointers.length
          pointers_after := r3.strong_pointers.length
          memory_before := r.contiguous_memory.length
          memory_after := r3.contiguous_memory.length } :: passes)
    else pure (r, [])

/-- The method `repository::attempt_dispose_element` together with the record of the
passes of its loop. -/
def repository.attempt_dispose_element_trace (r : repository T) (x : Nat) :
    Except Fault (repository T × List Pass) :=
  repository.dispose_loop_trace (r.strong_pointers.length + 1)
    { r with toDispose := insert x r.toDispose }

/-- The struct `tree` of `tests/tree_test.cpp`: a key and the handles of the two
children. -/
structure tree where
  value : Nat
  left : weak_pointer
  right : weak_pointer
  deriving DecidableEq, Repr

/-- The call `repo->new_element(key, repo)` for `T = tree`. Inside `emplace_back` the
constructor `tree(key, repo)` initialises `left` and then `right` with
`repo->new_null_pointer()`, which touch the counters and the strong pointers only; the
remaining statements of `new_element` follow. When `emplace_back` moves the vector to a
larger buffer it copies every stored tree and destroys the original: each copied handle
increments a counter that its original then decrements, and the counter is at least 1
throughout, so the repository is left as it was. -/
def tree_new_element (r : repository tree) (key : Nat) :
    Except Fault (repository tree × weak_pointer) := do
  let (r1, left) ← r.new_null_pointer
  let (r2, right) ← r1.new_null_pointer
  r2.new_element { value := key, left := left, right := right }

/-- The function `writeSequenceDown` of `tests/tree_test.cpp`, with a bound on the depth
of the recursion. The parameter `t` is passed by value: every call copies the handle and
destroys the copy when the callee returns. -/
def writeSequenceDown :
    Nat → repository tree → weak_pointer → Nat → List Nat → Except Fault (repository tree)
  | 0, _, _, _, _ => .error .out_of_fuel
  | fuel + 1, r, t, i, sequence =>
    if sequence.length > i then do
      let current ← vec_index sequence i
      let p ← weak_pointer.get r t
      match p with
      | none => do
        let (r1, newElement) ← tree_new_element r current
        let (r2, t2) ← weak_pointer.setGlobal r1 t newElement
        let r3 ← weak_pointer.dtor r2 newElement
        let (r4, arg) ← weak_pointer.copy r3 t2
        let r5 ← writeSequenceDown fuel r4 arg (i + 1) sequence
        weak_pointer.dtor r5 arg
      | some node =>
        let currentX := node.value
        if currentX = current then do
          let (r4, arg) ← weak_pointer.copy r t
          let r5 ← writeSequenceDown fuel r4 arg (i + 1) sequence
          weak_pointer.dtor r5 arg
        else if currentX < current then do
          let (r4, arg) ← weak_pointer.copy r node.right
          let r5 ← writeSequenceDown fuel r4 arg i sequence
          weak_pointer.dtor r5 arg
        else do
          let (r4, arg) ← weak_pointer.copy r node.left
          let r5 ← writeSequenceDown fuel r4 arg i sequence
          weak_pointer.dtor r5 arg
    else pure r

/-- The shape of a binary tree: the keys and where they sit. -/
inductive Shape where
  | leaf
  | node (value : Nat) (left right : Shape)
  deriving DecidableEq, Repr

/-- The tree that a handle resolves to, read as `tree::print` walks it: a handle that
resolves to nothing is a leaf. -/
def tree_shape : Nat → repository tree → weak_pointer → Except Fault Shape
  | 0, _, _ => .error .out_of_fuel
  | fuel + 1, r, h => do
    let p ← weak_pointer.get r h
    match p with
    | none => pure Shape.leaf
    | some node => do
      let l ← tree_shape fuel r node.left
      let k ← tree_shape fuel r node.right
      pure (Shape.node node.value l k)

/-- The first half of `TreeTest.test1`: a null `root` handle and the insertion of
`[5, 3, 2, 1]`. Returns the repository and `root`. -/
def test1_first : Except Fault (repository tree × weak_pointer) := do
  let (r0, root) ← (repository.empty : repository tree).new_null_pointer
  let (r1, arg) ← weak_pointer.copy r0 root
  let r2 ← writeSequenceDown 16 r1 arg 0 [5, 3, 2, 1]
  let r3 ← weak_pointer.dtor r2 arg
  pure (r3, root)

/-- The whole of `TreeTest.test1`: after `test1_first`, the insertion of `[4, 3, 2, 0]`
through the same `root`. -/
def test1_second : Except Fault (repository tree × weak_pointer) := do
  let (r3, root) ← test1_first
  let (r4, arg) ← weak_pointer.copy r3 root
  let r5 ← writeSequenceDown 16 r4 arg 0 [4, 3, 2, 0]
  let r6 ← weak_pointer.dtor r5 arg
  pure (r6, root)

/-- Coherent repositories: the invariants of the data model that the disposal loop keeps
from pass to pass. These are the conditions of `repository.WF` without the bound on the
counters and without the condition on the pending set; the keys of the alias map are in
strictly increasing order. -/
structure repository.Coherent (r : repository T) : Prop where
  counts_length : r.contiguous_memory_reference_count.length = r.strong_pointers.length
  pointers_size : r.strong_pointers.length < SIZE_MOD
  memory_size : r.contiguous_memory.length < SIZE_MOD
  keys_sorted : r.contiguous_memory_to_multimap.Pairwise fun e f => e.1 < f.1
  target_lt : ∀ i a : Nat, r.strong_pointers[i]? = some (some a) → a < r.contiguous_memory.length
  target_mem : ∀ i a : Nat, r.strong_pointers[i]? = some (some a) →
    ∃ s, (a, s) ∈ r.contiguous_memory_to_multimap ∧ i ∈ s
  alias_nonempty : ∀ e ∈ r.contiguous_memory_to_multimap, e.2.Nonempty
  alias_target : ∀ e ∈ r.contiguous_memory_to_multimap, ∀ i ∈ e.2,
    r.strong_pointers[i]? = some (some e.1)

/-- A repository whose two strong pointers cross: strong pointer 0 points to the second
value and strong pointer 1 to the first, both with counter 0. -/
def crossed_repository : repository Nat :=
  { contiguous_memory := [7, 8]
    contiguous_memory_reference_count := [0, 0]
    strong_pointers := [some 1, some 0]
    contiguous_memory_to_multimap := [(0, {1}), (1, {0})]
    toDispose := ∅ }

/-! ## Vectors and `size_t` -/

theorem vec_at_eq_ok {α : Type} (v : List α) (i : Nat) (h : i < v.length) :
    vec_at v i = .ok v[i] := by
  simp [vec_at, List.getElem?_eq_getElem h]

theorem vec_index_eq_ok {α : Type} (v : List α) (i : Nat) (h : i < v.length) :
    vec_index v i = .ok v[i] := by
  simp [vec_index, List.getElem?_eq_getElem h]

theorem size_dec_succ (n : Nat) (h : n < SIZE_MOD) : size_dec (n + 1) = n := by
  unfold size_dec SIZE_MOD at *
  omega

theorem size_inc_zero : size_inc 0 = 1 := by
  simp [size_inc, SIZE_MOD]

theorem size_dec_one : size_dec 1 = 0 := by
  simp [size_dec, SIZE_MOD]

theorem eraseIdx_append_singleton {α : Type} (l : List α) (x : α) (n : Nat)
    (h : n = l.length) : (l ++ [x]).eraseIdx n = l := by
  subst h
  induction l with
  | nil => rfl
  | cons a rest ih => simp [List.eraseIdx, ih]

theorem vec_at_ne_fuel {α : Type} (v : List α) (i : Nat) :
    vec_at v i ≠ .error .out_of_fuel := by
  unfold vec_at
  cases v[i]? <;> simp

theorem vec_index_ne_fuel {α : Type} (v : List α) (i : Nat) :
    vec_index v i ≠ .error .out_of_fuel := by
  unfold vec_index
  cases v[i]? <;> simp

/-! ## The alias map -/

theorem map_find_mem {m : AliasMap} {k : Nat} {s : Finset Nat} (h : map_find m k = some s) :
    (k, s) ∈ m := by
  induction m with
  | nil => simp [map_find] at h
  | cons e rest ih =>
    obtain ⟨k', t⟩ := e
    by_cases hk : k' = k
    · simp [map_find, hk] at h
      simp [h, hk]
    · simp [map_find, hk] at h
      exact List.mem_cons_of_mem _ (ih h)

theorem map_find_emplace_ne (m : AliasMap) (k x j : Nat) (h : j ≠ k) :
    map_find (map_emplace m k x) j = map_find m j := by
  induction m with
  | nil => simp [map_emplace, map_find, Ne.symm h]
  | cons e rest ih =>
    obtain ⟨k', t⟩ := e
    by_cases h1 : k < k'
    · simp [map_emplace, h1, map_find, Ne.symm h]
    · by_cases h2 : k = k'
      · subst h2
        simp [map_emplace, map_find, Ne.symm h]
      · by_cases h3 : k' = j
        · subst h3
          simp [map_emplace, h1, h2, map_find]
        · simp [map_emplace, h1, h2, map_find, h3, ih]

theorem map_find_emplace_self (m : AliasMap) (k x : Nat) (h : map_find m k = none) :
    map_find (map_emplace m k x) k = some {x} := by
  induction m with
  | nil => simp [map_emplace, map_find]
  | cons e rest ih =>
    obtain ⟨k', t⟩ := e
    by_cases h3 : k' = k
    · simp [map_find, h3] at h
    · simp only [map_find, h3, if_false] at h
      by_cases h1 : k < k'
      · simp [map_emplace, h1, map_find]
      · simp [map_emplace, h1, Ne.symm h3, map_find, h3, ih h]

theorem shift_set_of_lt (left : Nat) (s : Finset Nat) (h : ∀ x ∈ s, x < left) :
    shift_set left s = s := by
  have h1 : s.filter (fun x => left < x) = ∅ := by
    apply Finset.filter_false_of_mem
    intro x hx
    have := h x hx
    omega
  have h2 : s.filter (fun x => x < left) = s := Finset.filter_true_of_mem h
  simp [shift_set, h1, h2]

theorem filterMap_shift_of_lt (m : AliasMap) (left : Nat)
    (h : ∀ e ∈ m, e.2.Nonempty ∧ ∀ x ∈ e.2, x < left) :
    (m.filterMap fun e =>
      if shift_set left e.2 = ∅ then none else some (e.1, shift_set left e.2)) = m := by
  induction m with
  | nil => rfl
  | cons e rest ih =>
    have he := h e (List.mem_cons_self _ _)
    have hs : shift_set left e.2 = e.2 := shift_set_of_lt left e.2 he.2
    have hne : e.2 ≠ ∅ := Finset.nonempty_iff_ne_empty.mp he.1
    rw [List.filterMap_cons]
    simp only [hs, hne, if_false]
    rw [ih (fun e' he' => h e' (List.mem_cons_of_mem _ he'))]

theorem max_insert_of_lt (s : Finset Nat) (n : Nat) (h : ∀ p ∈ s, p < n) :
    (insert n s).max = WithBot.some n := by
  apply le_antisymm
  · apply Finset.max_le
    intro a ha
    rcases Finset.mem_insert.mp ha with rfl | ha
    · exact le_rfl
    · exact WithBot.coe_le_coe.mpr (le_of_lt (h a ha))
  · exact Finset.le_max (Finset.mem_insert_self n s)

/-! ## Well-formed repositories -/

theorem WF_member_lt {r : repository T} (hwf : r.WF) {e : Nat × Finset Nat}
    (he : e ∈ r.contiguous_memory_to_multimap) {i : Nat} (hi : i ∈ e.2) :
    i < r.strong_pointers.length := by
  have h := hwf.alias_target e he i hi
  by_contra hlt
  rw [List.getElem?_eq_none (Nat.le_of_not_lt hlt)] at h
  cases h

theorem WF_key_lt {r : repository T} (hwf : r.WF) {e : Nat × Finset Nat}
    (he : e ∈ r.contiguous_memory_to_multimap) : e.1 < r.contiguous_memory.length := by
  obtain ⟨i, hi⟩ := hwf.alias_nonempty e he
  exact hwf.target_lt i e.1 (hwf.alias_target e he i hi)

theorem WF_find_length {r : repository T} (hwf : r.WF) :
    map_find r.contiguous_memory_to_multimap r.contiguous_memory.length = none := by
  cases h : map_find r.contiguous_memory_to_multimap r.contiguous_memory.length with
  | none => rfl
  | some s =>
    have := WF_key_lt hwf (map_find_mem h)
    simp at this

theorem empty_WF : (repository.empty : repository T).WF where
  counts_length := rfl
  pointers_size := by simp [repository.empty, SIZE_MOD]
  memory_size := by simp [repository.empty, SIZE_MOD]
  counts_size := by simp [repository.empty]
  keys_sorted := by simp [repository.empty]
  target_lt := by simp [repository.empty]
  target_mem := by simp [repository.empty]
  alias_nonempty := by simp [repository.empty]
  alias_target := by simp [repository.empty]
  pending_lt := by simp [repository.empty]

theorem sample_repository_WF : sample_repository.WF where
  counts_length := rfl
  pointers_size := by simp [sample_repository, SIZE_MOD]
  memory_size := by simp [sample_repository, SIZE_MOD]
  counts_size := by simp [sample_repository, SIZE_MOD]
  keys_sorted := by simp [sample_repository]
  target_lt := by
    intro i a h
    rcases i with _ | _ | _ | i <;> simp [sample_repository] at h ⊢ <;> omega
  target_mem := by
    intro i a h
    rcases i with _ | _ | _ | i <;> simp [sample_repository] at h <;> subst h <;>
      simp [sample_repository, map_find]
  alias_nonempty := by simp [sample_repository]
  alias_target := by simp [sample_repository]
  pending_lt := by simp [sample_repository]

/-! ## The disposal loop -/

theorem dispose_loop_succ (fuel : Nat) (r : repository T) :
    r.dispose_loop (fuel + 1) =
      if r.toDispose.max = WithBot.some (size_dec r.strong_pointers.length) then
        (r.dispose_step (size_dec r.strong_pointers.length)).bind fun r3 =>
          repository.dispose_loop fuel
            { r3 with toDispose := r3.toDispose.erase (size_dec r.strong_pointers.length) }
      else .ok r := by
  rw [repository.dispose_loop]
  rfl

theorem dispose_strong_ponter_ok {r r2 : repository T} {left : Nat}
    (h : r.dispose_strong_ponter left = .ok r2) :
    r2.strong_pointers = r.strong_pointers.eraseIdx left ∧
    left < r.strong_pointers.length := by
  unfold repository.dispose_strong_ponter at h
  split at h
  · rename_i hlt
    simp only [pure, Except.pure, Except.ok.injEq] at h
    subst h
    exact ⟨rfl, hlt.1⟩
  · cases h

theorem dispose_strong_ponter_ne_fuel (r : repository T) (left : Nat) :
    r.dispose_strong_ponter left ≠ .error .out_of_fuel := by
  unfold repository.dispose_strong_ponter
  split <;> simp [pure, Except.pure]

theorem dispose_value_length {r r2 : repository T} {pos : Nat}
    (h : r.dispose_value pos = .ok r2) :
    r2.strong_pointers.length = r.strong_pointers.length := by
  unfold repository.dispose_value at h
  cases hc : vec_index r.contiguous_memory_reference_count pos with
  | error e => simp [hc, bind, Except.bind] at h
  | ok c =>
    simp only [hc, bind, Except.bind] at h
    split at h
    · cases h
    · split at h
      · cases h
      · split at h
        · cases h
        · split at h
          · cases h
          · simp only [pure, Except.pure, Except.ok.injEq] at h
            subst h
            simp

theorem dispose_value_ne_fuel (r : repository T) (pos : Nat) :
    r.dispose_value pos ≠ .error .out_of_fuel := by
  unfold repository.dispose_value
  cases hc : vec_index r.contiguous_memory_reference_count pos with
  | error e =>
    have := vec_index_ne_fuel r.contiguous_memory_reference_count pos
    rw [hc] at this
    simpa [bind, Except.bind] using this
  | ok c =>
    simp only [bind, Except.bind]
    split
    · simp
    · split
      · simp
      · split
        · simp
        · split
          · simp
          · simp [pure, Except.pure]

theorem dispose_alias_ok {r r1 : repository T} {left : Nat} {ref : Option Nat} {b : Bool}
    {a : Nat} (h : r.dispose_alias left ref = .ok (r1, b, a)) :
    r1.strong_pointers = r.strong_pointers ∧
    r1.contiguous_memory_reference_count = r.contiguous_memory_reference_count ∧
    r1.contiguous_memory = r.contiguous_memory ∧ r1.toDispose = r.toDispose := by
  unfold repository.dispose_alias at h
  split at h
  · split at h
    · cases h
    · split at h
      · cases h
      · simp only [Except.ok.injEq, Prod.mk.injEq] at h
        obtain ⟨h1, -, -⟩ := h
        subst h1
        exact ⟨rfl, rfl, rfl, rfl⟩
  · simp only [Except.ok.injEq, Prod.mk.injEq] at h
    obtain ⟨h1, -, -⟩ := h
    subst h1
    exact ⟨rfl, rfl, rfl, rfl⟩

theorem dispose_alias_ne_fuel (r : repository T) (left : Nat) (ref : Option Nat) :
    r.dispose_alias left ref ≠ .error .out_of_fuel := by
  unfold repository.dispose_alias
  split
  · split
    · simp
    · split <;> simp
  · simp

theorem dispose_step_length {r r3 : repository T} {left : Nat}
    (h : r.dispose_step left = .ok r3) :
    r3.strong_pointers.length + 1 = r.strong_pointers.length := by
  unfold repository.dispose_step at h
  cases href : vec_at r.strong_pointers left with
  | error e => simp [href, bind, Except.bind] at h
  | ok ref =>
    cases hal : r.dispose_alias left ref with
    | error e => simp [href, hal, bind, Except.bind] at h
    | ok p =>
      obtain ⟨r1, b, a⟩ := p
      cases hsp : r1.dispose_strong_ponter left with
      | error e => simp [href, hal, hsp, bind, Except.bind] at h
      | ok r2 =>
        simp only [href, hal, hsp, bind, Except.bind] at h
        have h1 := (dispose_alias_ok hal).1
        obtain ⟨h2, hlt⟩ := dispose_strong_ponter_ok hsp
        have hlen : r2.strong_pointers.length + 1 = r.strong_pointers.length := by
          rw [h2, List.length_eraseIdx, h1] at *
          simp only [hlt, if_true]
          omega
        cases b with
        | true =>
          simp only [if_true] at h
          rw [dispose_value_length h]
          exact hlen
        | false =>
          simp only [Bool.false_eq_true, if_false, pure, Except.pure, Except.ok.injEq] at h
          subst h
          exact hlen

theorem dispose_step_ne_fuel (r : repository T) (left : Nat) :
    r.dispose_step left ≠ .error .out_of_fuel := by
  unfold repository.dispose_step
  simp only [bind, Except.bind]
  cases href : vec_at r.strong_pointers left with
  | error e =>
    have := vec_at_ne_fuel r.strong_pointers left
    rw [href] at this
    simpa using this
  | ok ref =>
    dsimp only
    cases hal : r.dispose_alias left ref with
    | error e =>
      have := dispose_alias_ne_fuel r left ref
      rw [hal] at this
      simpa using this
    | ok p =>
      obtain ⟨r1, b, a⟩ := p
      dsimp only
      cases hsp : r1.dispose_strong_ponter left with
      | error e =>
        have := dispose_strong_ponter_ne_fuel r1 left
        rw [hsp] at this
        simpa using this
      | ok r2 =>
        dsimp only
        cases b with
        | true => simpa using dispose_value_ne_fuel r2 a
        | false => simp [pure, Except.pure]

theorem dispose_loop_ne_fuel (fuel : Nat) :
    ∀ r : repository T, r.strong_pointers.length < fuel →
      r.dispose_loop fuel ≠ .error .out_of_fuel := by
  induction fuel with
  | zero => intro r h; omega
  | succ n ih =>
    intro r h
    rw [dispose_loop_succ]
    split
    · cases hstep : r.dispose_step (size_dec r.strong_pointers.length) with
      | error e =>
        have := dispose_step_ne_fuel r (size_dec r.strong_pointers.length)
        rw [hstep] at this
        simpa [Except.bind] using this
      | ok r3 =>
        simp only [Except.bind]
        apply ih
        have := dispose_step_length hstep
        simp only
        omega
    · simp

theorem attempt_dispose_element_fuel (r : repository T) (x : Nat) :
    r.attempt_dispose_element x ≠ .error .out_of_fuel :=
  dispose_loop_ne_fuel _ _ (Nat.lt_succ_self _)

/-- The loop of `attempt_dispose_element` stops at once on a repository whose pending
strong pointers are all below the last one. -/
theorem dispose_loop_of_pending_lt (fuel : Nat) (r : repository T)
    (hsize : r.strong_pointers.length < SIZE_MOD)
    (h : ∀ p ∈ r.toDispose, p + 1 < r.strong_pointers.length) :
    r.dispose_loop (fuel + 1) = .ok r := by
  have hne : ¬ r.toDispose.max = WithBot.some (size_dec r.strong_pointers.length) := by
    intro hmax
    have hmem : size_dec r.strong_pointers.length ∈ r.toDispose := Finset.mem_of_max hmax
    have hlt := h _ hmem
    cases hn : r.strong_pointers.length with
    | zero => rw [hn] at hlt; omega
    | succ n =>
      rw [hn] at hlt hsize
      rw [size_dec_succ n (by omega)] at hlt
      omega
  rw [dispose_loop_succ, if_neg hne]

/-! ## Creation -/

/-- The repository left by `new_element` once the returned handle exists. -/
theorem new_element_eq (r : repository T) (v : T)
    (h : r.contiguous_memory_reference_count.length = r.strong_pointers.length) :
    r.new_element v = .ok
      ({ r with
          contiguous_memory := r.contiguous_memory ++ [v]
          contiguous_memory_reference_count := r.contiguous_memory_reference_count ++ [1]
          strong_pointers := r.strong_pointers ++ [some r.contiguous_memory.length]
          contiguous_memory_to_multimap :=
            map_emplace r.contiguous_memory_to_multimap r.contiguous_memory.length
              r.strong_pointers.length },
       { element := true, strong_ptr_pos := r.strong_pointers.length }) := by
  simp [repository.new_element, weak_pointer.ctor, repository.increment, h, vec_index,
    size_inc_zero, bind, Except.bind, pure, Except.pure]

/-- Outcome of `new_element` when the counters and the strong pointers differ in number:
the `assert` of `increment` fails. -/
theorem new_element_eq_error (r : repository T) (v : T)
    (h : r.contiguous_memory_reference_count.length ≠ r.strong_pointers.length) :
    r.new_element v = .error .assertion := by
  simp [repository.new_element, weak_pointer.ctor, repository.increment, h,
    bind, Except.bind]

theorem new_null_pointer_eq (r : repository T)
    (h : r.contiguous_memory_reference_count.length = r.strong_pointers.length) :
    r.new_null_pointer = .ok
      ({ r with
          contiguous_memory_reference_count := r.contiguous_memory_reference_count ++ [1]
          strong_pointers := r.strong_pointers ++ [none] },
       { element := true, strong_ptr_pos := r.strong_pointers.length }) := by
  simp [repository.new_null_pointer, weak_pointer.ctor, repository.increment, h, vec_index,
    size_inc_zero, bind, Except.bind, pure, Except.pure]

/-! ## Resolution -/

theorem resolvePointer_of_le (r : repository T) (i : Nat)
    (h : r.strong_pointers.length ≤ i) : r.resolvePointer i = .ok none := by
  simp [repository.resolvePointer, h]

theorem resolvePointer_of_lt (r : repository T) (i : Nat)
    (h : i < r.strong_pointers.length) :
    r.resolvePointer i =
      .ok (match r.strong_pointers[i] with
           | some a => r.contiguous_memory[a]?
           | none => none) := by
  have hn : ¬ r.strong_pointers.length ≤ i := by omega
  simp only [repository.resolvePointer, hn, if_false, vec_at_eq_ok _ _ h, bind, Except.bind]
  cases r.strong_pointers[i] with
  | none => rfl
  | some a =>
    by_cases ha : a < r.contiguous_memory.length
    · simp [repository.resolveStrongPointer, ha, vec_at_eq_ok, Except.map,
        List.getElem?_eq_getElem ha]
    · have hnone : r.contiguous_memory[a]? = none :=
        List.getElem?_eq_none (Nat.le_of_not_lt ha)
      simp [repository.resolveStrongPointer, ha, hnone]

/-- C2: `resolvePointer` returns normally on every repository and every index. It returns
none exactly when the index is not below the number of strong pointers, or the strong
pointer has no target, or its target is not below the size of the contiguous memory; in
every other case it returns the value stored at the target. As a `const` member function
it is a function of the repository and yields no new state. -/
theorem resolvePointer_spec (r : repository T) (i : Nat) :
    (∃ o, r.resolvePointer i = .ok o) ∧
    (r.resolvePointer i = .ok none ↔
      (¬ i < r.strong_pointers.length ∨ r.strong_pointers[i]? = some none ∨
        ∃ a, r.strong_pointers[i]? = some (some a) ∧ ¬ a < r.contiguous_memory.length)) ∧
    (∀ a, r.strong_pointers[i]? = some (some a) → ∀ h : a < r.contiguous_memory.length,
      r.resolvePointer i = .ok (some r.contiguous_memory[a])) := by
  by_cases hi : i < r.strong_pointers.length
  · rw [resolvePointer_of_lt r i hi, List.getElem?_eq_getElem hi]
    cases hsp : r.strong_pointers[i] with
    | none => simp [hi]
    | some a =>
      by_cases ha : a < r.contiguous_memory.length
      · simp [hi, ha, List.getElem?_eq_getElem ha]
      · simp [hi, ha]
  · rw [resolvePointer_of_le r i (by omega)]
    have hnone : r.strong_pointers[i]? = none := List.getElem?_eq_none (by omega)
    simp [hi, hnone]

/-- C1: on every repository, whenever `new_element v` returns a handle, the handle is
bound to the new last strong pointer and resolves to `v` (through `resolvePointer` and
through `weak_pointer::get`); the only repositories on which it does not return are those
rejected by the `assert` of `increment`, whose counters and strong pointers differ in
number. -/
theorem new_element_resolves (r : repository T) (v : T) :
    (∀ r1 h, r.new_element v = .ok (r1, h) →
      h.strong_ptr_pos = r.strong_pointers.length ∧
      r1.resolvePointer h.strong_ptr_pos = .ok (some v) ∧
      weak_pointer.get r1 h = .ok (some v)) ∧
    (r.contiguous_memory_reference_count.length = r.strong_pointers.length →
      ∃ r1 h, r.new_element v = .ok (r1, h)) ∧
    (r.contiguous_memory_reference_count.length ≠ r.strong_pointers.length →
      r.new_element v = .error .assertion) := by
  refine ⟨?_, ?_, new_element_eq_error r v⟩
  · intro r1 h hnew
    by_cases hlen : r.contiguous_memory_reference_count.length = r.strong_pointers.length
    · rw [new_element_eq r v hlen] at hnew
      cases hnew
      have hres : ({ r with
          contiguous_memory := r.contiguous_memory ++ [v]
          contiguous_memory_reference_count := r.contiguous_memory_reference_count ++ [1]
          strong_pointers := r.strong_pointers ++ [some r.contiguous_memory.length]
          contiguous_memory_to_multimap :=
            map_emplace r.contiguous_memory_to_multimap r.contiguous_memory.length
              r.strong_pointers.length } : repository T).resolvePointer
            r.strong_pointers.length = .ok (some v) := by
        rw [resolvePointer_of_lt _ _ (by simp)]
        simp
      exact ⟨rfl, hres, by simpa [weak_pointer.get] using hres⟩
    · rw [new_element_eq_error r v hlen] at hnew
      cases hnew
  · intro hlen
    exact ⟨_, _, new_element_eq r v hlen⟩

/-- Witness of C1 on `sample_repository`: `new_element 23` returns a handle bound to
strong pointer 3 that resolves to 23. -/
theorem new_element_resolves_witness :
    ∃ r1 h, sample_repository.new_element 23 = .ok (r1, h) ∧
      h.strong_ptr_pos = 3 ∧ r1.resolvePointer h.strong_ptr_pos = .ok (some 23) := by
  obtain ⟨r1, h, hnew⟩ := (new_element_resolves sample_repository 23).2.1 rfl
  obtain ⟨hpos, hres, -⟩ := (new_element_resolves sample_repository 23).1 r1 h hnew
  exact ⟨r1, h, hnew, hpos, hres⟩

/-! ## Equality -/

/-- C3: on a well-formed repository and two strong pointers inside the table,
`strongPointerEquality` returns normally, `weak_pointer::operator==` on two handles of the
repository returns the same answer, and the answer is true exactly when the two indices
are equal, or both strong pointers are null, or both have a target and the two values of
the contiguous memory are equal. In particular two strong pointers that resolve to the
same result compare equal, whatever their indices. -/
theorem strongPointerEquality_spec [DecidableEq T] (r : repository T) (hwf : r.WF)
    (l k : Nat) (hl : l < r.strong_pointers.length) (hk : k < r.strong_pointers.length) :
    ∃ b, r.strongPointerEquality l k = .ok b ∧
      weak_pointer.eq r ⟨true, l⟩ ⟨true, k⟩ = .ok b ∧
      (b = true ↔
        (l = k ∨ (r.strong_pointers[l] = none ∧ r.strong_pointers[k] = none) ∨
          ∃ a c, r.strong_pointers[l] = some a ∧ r.strong_pointers[k] = some c ∧
            ∃ (ha : a < r.contiguous_memory.length) (hc : c < r.contiguous_memory.length),
              r.contiguous_memory[a] = r.contiguous_memory[c])) ∧
      (r.resolvePointer l = r.resolvePointer k → b = true) := by
  have hres_l := resolvePointer_of_lt r l hl
  have hres_k := resolvePointer_of_lt r k hk
  have hwf_l := hwf.target_lt l
  have hwf_k := hwf.target_lt k
  rw [List.getElem?_eq_getElem hl] at hwf_l
  rw [List.getElem?_eq_getElem hk] at hwf_k
  simp only [repository.strongPointerEquality, weak_pointer.eq, vec_index_eq_ok _ _ hl,
    vec_index_eq_ok _ _ hk, bind, Except.bind, pure, Except.pure, if_true]
  by_cases hlk : l = k
  · subst hlk
    simp
  · rw [hres_l, hres_k]
    simp only [hlk, if_false, false_or]
    cases hol : r.strong_pointers[l] with
    | none =>
      cases hok : r.strong_pointers[k] with
      | none => simp
      | some c =>
        have hc : c < r.contiguous_memory.length := hwf_k c (by rw [hok])
        simp [List.getElem?_eq_getElem hc]
    | some a =>
      have ha : a < r.contiguous_memory.length := hwf_l a (by rw [hol])
      cases hok : r.strong_pointers[k] with
      | none => simp [List.getElem?_eq_getElem ha]
      | some c =>
        have hc : c < r.contiguous_memory.length := hwf_k c (by rw [hok])
        by_cases hac : a = c
        · subst hac
          simp [ha]
        · have hne : (some a : Option Nat) ≠ some c := by simpa using hac
          simp [hne, vec_index_eq_ok _ _ ha, vec_index_eq_ok _ _ hc, ha, hc,
            List.getElem?_eq_getElem ha, List.getElem?_eq_getElem hc]

/-- Witness of C3 on `sample_repository`: strong pointers 0 and 1 have different targets
holding equal values, and compare equal. -/
theorem strongPointerEquality_spec_witness :
    sample_repository.WF ∧ sample_repository.strongPointerEquality 0 1 = .ok true ∧
      weak_pointer.eq sample_repository ⟨true, 0⟩ ⟨true, 1⟩ = .ok true := by
  obtain ⟨b, h1, h2, h3, -⟩ :=
    strongPointerEquality_spec sample_repository sample_repository_WF 0 1
      (by decide) (by decide)
  have hb : b = true :=
    h3.mpr (Or.inr (Or.inr ⟨0, 1, rfl, rfl, by decide, by decide, rfl⟩))
  subst hb
  exact ⟨sample_repository_WF, h1, h2⟩

/-! ## Retargeting -/

/-- C4 (the code departs from the claim when `h` is the last strong pointer): after
`a = new_element(23)` and `b = new_null_pointer()`, both handles alive, the repository has
the strong pointers `[some 0, none]` with counters `[1, 1]`; `b.setGlobal(a)` first calls
`attempt_dispose_element(1)`, which removes strong pointer 1 although its counter is 1,
and the assignment `strong_pointers[left] = strong_pointers[right]` is then outside the
vector. -/
theorem setGlobal_last_strong_pointer :
    ∃ r2 a b r3,
      (do
        let (r1, a) ← (repository.empty : repository Nat).new_element 23
        let (r2, b) ← r1.new_null_pointer
        pure (r2, a, b)) = .ok (r2, a, b) ∧
      r2.strong_pointers = [some 0, none] ∧
      r2.contiguous_memory_reference_count = [1, 1] ∧
      a.strong_ptr_pos = 0 ∧ b.strong_ptr_pos = 1 ∧
      r2.attempt_dispose_element 1 = .ok r3 ∧
      r3.strong_pointers = [some 0] ∧
      weak_pointer.setGlobal r2 b a = .error .undefined :=
  ⟨_, _, _, _, rfl, rfl, rfl, rfl, rfl, rfl, rfl, rfl⟩

/-- C5 (the code departs from the claim): after `a = new_element(7)` and
`b = new_element(9)`, strong pointer 0 is the only one with target 0 and strong pointer 1
has target 1; `a.setGlobal(b)` returns with the contiguous memory still `[7, 9]` and with
strong pointer 0 still listed in the alias set of offset 0, although its target is now 1. -/
theorem setGlobal_keeps_previous_target :
    ∃ r2 a b r3 h,
      (do
        let (r1, a) ← (repository.empty : repository Nat).new_element 7
        let (r2, b) ← r1.new_element 9
        pure (r2, a, b)) = .ok (r2, a, b) ∧
      r2.strong_pointers = [some 0, some 1] ∧
      a.strong_ptr_pos = 0 ∧ b.strong_ptr_pos = 1 ∧
      weak_pointer.setGlobal r2 a b = .ok (r3, h) ∧
      r3.strong_pointers = [some 1, some 1] ∧
      r3.contiguous_memory = [7, 9] ∧
      map_find r3.contiguous_memory_to_multimap 0 = some {0} ∧
      map_find r3.contiguous_memory_to_multimap 1 = some {0, 1} :=
  ⟨_, _, _, _, _, rfl, rfl, rfl, rfl, rfl, rfl, rfl, rfl, rfl⟩

/-! ## Dropping a handle -/

/-- C6 (the code departs from the claim): with a null handle alive (strong pointer 0,
counter 1), `b = new_element(23)` followed by the drop of `b` does not return: the
disposal of the value at offset 0 runs `assert(contiguous_memory_reference_count[pos] == 0)`
with the offset `pos = 0`, and reads the counter 1 of strong pointer 0. -/
theorem new_element_drop_asserts :
    ∃ r2 b,
      (do
        let (r1, _) ← (repository.empty : repository Nat).new_null_pointer
        r1.new_element 23) = .ok (r2, b) ∧
      r2.strong_pointers = [none, some 0] ∧
      r2.contiguous_memory_reference_count = [1, 1] ∧
      b.strong_ptr_pos = 1 ∧
      weak_pointer.dtor r2 b = .error .assertion :=
  ⟨_, _, rfl, rfl, rfl, rfl, rfl⟩

/-- C7: on a well-formed repository, `new_null_pointer()` returns a handle, and the drop
of that handle returns the repository it started from: the strong pointers, the counters,
the contiguous memory, the alias map (and the pending set) are those before the call. -/
theorem new_null_pointer_drop (r : repository T) (hwf : r.WF) :
    ∃ r1 h, r.new_null_pointer = .ok (r1, h) ∧ weak_pointer.dtor r1 h = .ok r := by
  refine ⟨_, _, new_null_pointer_eq r hwf.counts_length, ?_⟩
  have hlen := hwf.counts_length
  have hmax : (insert r.strong_pointers.length r.toDispose).max =
      WithBot.some r.strong_pointers.length :=
    max_insert_of_lt _ _ (fun p hp => by have := hwf.pending_lt p hp; omega)
  have hnotmem : r.strong_pointers.length ∉ r.toDispose := by
    intro hp
    have := hwf.pending_lt _ hp
    omega
  have hmap := filterMap_shift_of_lt r.contiguous_memory_to_multimap r.strong_pointers.length
    (fun e he => ⟨hwf.alias_nonempty e he, fun x hx => WF_member_lt hwf he hx⟩)
  have hdec : ({ r with
      contiguous_memory_reference_count := r.contiguous_memory_reference_count ++ [1]
      strong_pointers := r.strong_pointers ++ [none] } : repository T).decrement
        r.strong_pointers.length =
      ({ r with
        contiguous_memory_reference_count := r.contiguous_memory_reference_count ++ [0]
        strong_pointers := r.strong_pointers ++ [none] } :
          repository T).attempt_dispose_element r.strong_pointers.length := by
    simp [repository.decrement, hlen, vec_index, size_dec_one, bind, Except.bind, pure,
      Except.pure]
  have hstep : ({ r with
      contiguous_memory_reference_count := r.contiguous_memory_reference_count ++ [0]
      strong_pointers := r.strong_pointers ++ [none]
      toDispose := insert r.strong_pointers.length r.toDispose } : repository T).dispose_step
        r.strong_pointers.length =
      .ok { r with toDispose := insert r.strong_pointers.length r.toDispose } := by
    simp [repository.dispose_step, repository.dispose_alias, vec_at,
      repository.dispose_strong_ponter, hlen, hmap,
      bind, Except.bind, pure, Except.pure]
    exact ⟨eraseIdx_append_singleton _ _ _ hlen.symm, eraseIdx_append_singleton _ _ _ rfl⟩
  simp only [weak_pointer.dtor, if_true, hdec, repository.attempt_dispose_element]
  rw [dispose_loop_succ]
  simp only [List.length_append, List.length_singleton, size_dec_succ _ hwf.pointers_size,
    hmax, if_true, hstep, Except.bind, Finset.erase_insert hnotmem]
  exact dispose_loop_of_pending_lt _ r hwf.pointers_size hwf.pending_lt

/-- Witness of C7 on `sample_repository` (strong pointer 0 is pending there and stays so)
and on the empty repository, whose table of strong pointers is empty again afterwards. -/
theorem new_null_pointer_drop_witness :
    (∃ r1 h, sample_repository.new_null_pointer = .ok (r1, h) ∧
      weak_pointer.dtor r1 h = .ok sample_repository) ∧
    (∃ r1 h, (repository.empty : repository Nat).new_null_pointer = .ok (r1, h) ∧
      weak_pointer.dtor r1 h = .ok repository.empty ∧
      (repository.empty : repository Nat).strong_pointers.length = 0) := by
  refine ⟨new_null_pointer_drop _ sample_repository_WF, ?_⟩
  obtain ⟨r1, h, h1, h2⟩ := new_null_pointer_drop (repository.empty : repository Nat) empty_WF
  exact ⟨r1, h, h1, h2, rfl⟩

/-! ## Aggregate reference count -/

/-- C8 (the code departs from the claim): with a null handle alive, `h = new_element(23)`
is bound to strong pointer 1 with target 0, and `h.getReferenceCounterToVal()` looks the
alias set up under the key 1 (the strong pointer) where the map has the key 0 (the
offset): the `assert` on the lookup fails. -/
theorem getReferenceCounterToVal_after_new_element :
    ∃ r2 h,
      (do
        let (r1, _) ← (repository.empty : repository Nat).new_null_pointer
        r1.new_element 23) = .ok (r2, h) ∧
      h.strong_ptr_pos = 1 ∧
      r2.strong_pointers = [none, some 0] ∧
      r2.contiguous_memory_to_multimap = [(0, {1})] ∧
      weak_pointer.getReferenceCounterToVal r2 h = .error .assertion :=
  ⟨_, _, rfl, rfl, rfl, rfl, rfl⟩

/-- C9 (the code departs from the claim): after `new_null_pointer()`, `new_element(7)`,
`new_element(9)` and a copy of the last handle, strong pointer 1 has target 0, the alias
set of offset 0 is `{1}` and the counter of strong pointer 1 is 1, but
`getReferenceCounterToVal(1)` sums the alias set stored under the key 1, which is `{2}`, and
returns the counter 2 of strong pointer 2. -/
theorem getReferenceCounterToVal_wrong_alias_set :
    ∃ r,
      (do
        let (r1, _) ← (repository.empty : repository Nat).new_null_pointer
        let (r2, _) ← r1.new_element 7
        let (r3, c) ← r2.new_element 9
        let (r4, _) ← weak_pointer.copy r3 c
        pure r4) = .ok r ∧
      r.strong_pointers = [none, some 0, some 1] ∧
      r.contiguous_memory_reference_count = [1, 1, 2] ∧
      map_find r.contiguous_memory_to_multimap 0 = some {1} ∧
      map_find r.contiguous_memory_to_multimap 1 = some {2} ∧
      r.getReferenceCounterToVal 1 = .ok 2 :=
  ⟨_, rfl, rfl, rfl, rfl, rfl, rfl⟩

/-! ## The frame of creation -/

/-- C10: on a well-formed repository with `m` values and `n` strong pointers,
`new_element v` returns a handle bound to strong pointer `n` and a repository whose
contiguous memory has length `m + 1` with `v` at offset `m`, whose table has length `n + 1`
with strong pointer `n` targeting `m`, whose alias set of `m` is exactly `{n}`, and whose
counter of `n` is 1; the values below `m`, the targets and counters below `n`, every other
alias set and the pending set are unchanged. -/
theorem new_element_frame (r : repository T) (hwf : r.WF) (v : T) :
    ∃ r1, r.new_element v = .ok (r1, ⟨true, r.strong_pointers.length⟩) ∧
      r1.contiguous_memory.length = r.contiguous_memory.length + 1 ∧
      r1.contiguous_memory[r.contiguous_memory.length]? = some v ∧
      r1.strong_pointers.length = r.strong_pointers.length + 1 ∧
      r1.strong_pointers[r.strong_pointers.length]? = some (some r.contiguous_memory.length) ∧
      map_find r1.contiguous_memory_to_multimap r.contiguous_memory.length =
        some {r.strong_pointers.length} ∧
      r1.contiguous_memory_reference_count.length = r.strong_pointers.length + 1 ∧
      r1.contiguous_memory_reference_count[r.strong_pointers.length]? = some 1 ∧
      (∀ j, j < r.contiguous_memory.length →
        r1.contiguous_memory[j]? = r.contiguous_memory[j]?) ∧
      (∀ i, i < r.strong_pointers.length →
        r1.strong_pointers[i]? = r.strong_pointers[i]? ∧
        r1.contiguous_memory_reference_count[i]? = r.contiguous_memory_reference_count[i]?) ∧
      (∀ a, a ≠ r.contiguous_memory.length →
        map_find r1.contiguous_memory_to_multimap a =
          map_find r.contiguous_memory_to_multimap a) ∧
      r1.toDispose = r.toDispose := by
  have hlen := hwf.counts_length
  refine ⟨_, new_element_eq r v hlen, ?_, ?_, ?_, ?_, ?_, ?_, ?_, ?_, ?_, ?_, rfl⟩
  · simp
  · simp
  · simp
  · simp
  · exact map_find_emplace_self _ _ _ (WF_find_length hwf)
  · simp [hlen]
  · simp [← hlen]
  · intro j hj
    exact List.getElem?_append_left hj
  · intro i hi
    exact ⟨List.getElem?_append_left hi, List.getElem?_append_left (by omega)⟩
  · intro a ha
    exact map_find_emplace_ne _ _ _ _ ha

/-- Witness of C10 on `sample_repository` (`m = 2`, `n = 3`). -/
theorem new_element_frame_witness :
    ∃ r1, sample_repository.new_element 23 = .ok (r1, ⟨true, 3⟩) ∧
      r1.contiguous_memory[2]? = some 23 ∧
      r1.strong_pointers[3]? = some (some 2) ∧
      map_find r1.contiguous_memory_to_multimap 2 = some {3} ∧
      r1.contiguous_memory_reference_count[3]? = some 1 := by
  obtain ⟨r1, h1, -, h3, -, h5, h6, -, h8, -⟩ :=
    new_element_frame sample_repository sample_repository_WF 23
  exact ⟨r1, h1, h3, h5, h6, h8⟩

/-! ## Null handles -/

theorem new_null_pointer_eq_error (r : repository T)
    (h : r.contiguous_memory_reference_count.length ≠ r.strong_pointers.length) :
    r.new_null_pointer = .error .assertion := by
  simp [repository.new_null_pointer, weak_pointer.ctor, repository.increment, h,
    bind, Except.bind]

/-- C11: on every repository, whenever `new_null_pointer()` returns a handle, the handle
is bound to the new last strong pointer, whose target is null and whose counter is 1, and
the contiguous memory, the alias map, the pending set and the older strong pointers and
counters are unchanged; a second `new_null_pointer()` then returns a handle bound to a
different strong pointer, and the two handles compare equal. The call returns on every
repository with as many counters as strong pointers; the only repositories on which it
does not return are those rejected by the `assert` of `increment`. -/
theorem new_null_pointer_spec [DecidableEq T] (r : repository T) :
    (∀ r1 h, r.new_null_pointer = .ok (r1, h) →
      h = ⟨true, r.strong_pointers.length⟩ ∧
      r1.strong_pointers = r.strong_pointers ++ [none] ∧
      r1.contiguous_memory_reference_count = r.contiguous_memory_reference_count ++ [1] ∧
      r1.contiguous_memory_reference_count[h.strong_ptr_pos]? = some 1 ∧
      r1.contiguous_memory = r.contiguous_memory ∧
      r1.contiguous_memory_to_multimap = r.contiguous_memory_to_multimap ∧
      r1.toDispose = r.toDispose ∧
      ∀ r2 h2, r1.new_null_pointer = .ok (r2, h2) →
        h.strong_ptr_pos ≠ h2.strong_ptr_pos ∧ weak_pointer.eq r2 h h2 = .ok true) ∧
    (r.contiguous_memory_reference_count.length = r.strong_pointers.length →
      ∃ r1 h r2 h2, r.new_null_pointer = .ok (r1, h) ∧ r1.new_null_pointer = .ok (r2, h2)) ∧
    (r.contiguous_memory_reference_count.length ≠ r.strong_pointers.length →
      r.new_null_pointer = .error .assertion) := by
  refine ⟨?_, ?_, new_null_pointer_eq_error r⟩
  · intro r1 h hnew
    by_cases hlen : r.contiguous_memory_reference_count.length = r.strong_pointers.length
    · rw [new_null_pointer_eq r hlen] at hnew
      simp only [Except.ok.injEq, Prod.mk.injEq] at hnew
      obtain ⟨rfl, rfl⟩ := hnew
      refine ⟨rfl, rfl, rfl, ?_, rfl, rfl, rfl, ?_⟩
      · simp [hlen]
      · intro r2 h2 hnew2
        rw [new_null_pointer_eq _ (by simp [hlen])] at hnew2
        simp only [Except.ok.injEq, Prod.mk.injEq] at hnew2
        obtain ⟨rfl, rfl⟩ := hnew2
        refine ⟨by simp, ?_⟩
        have h1 : (r.strong_pointers ++ [none] ++ [none])[r.strong_pointers.length]? =
            some (none : Option Nat) := by
          rw [List.append_assoc, List.getElem?_append_right (le_refl _), Nat.sub_self]
          rfl
        have h2 : (r.strong_pointers ++ [none] ++ [none])[r.strong_pointers.length + 1]? =
            some (none : Option Nat) := by
          rw [List.append_assoc, List.getElem?_append_right (Nat.le_succ _)]
          have e : r.strong_pointers.length.succ - r.strong_pointers.length = 1 := by omega
          rw [e]
          rfl
        have v1 : vec_index (r.strong_pointers ++ [none] ++ [none]) r.strong_pointers.length =
            .ok none := by simp only [vec_index, h1]
        have v2 : vec_index (r.strong_pointers ++ [none] ++ [none])
            (r.strong_pointers.length + 1) = .ok none := by simp only [vec_index, h2]
        have v3 : vec_index (r.strong_pointers ++ [none, none])
            (r.strong_pointers.length + 1) = .ok none := by
          rw [← v2, List.append_assoc]
          rfl
        simp only [weak_pointer.eq, repository.strongPointerEquality, v1, v2, v3,
          bind, Except.bind, pure, Except.pure]
        simp [v3]
    · rw [new_null_pointer_eq_error r hlen] at hnew
      cases hnew
  · intro hlen
    exact ⟨_, _, _, _, new_null_pointer_eq r hlen, new_null_pointer_eq _ (by simp [hlen])⟩

/-- Witness of C11 on `sample_repository`: two `new_null_pointer()` calls return handles
bound to the strong pointers 3 and 4, which compare equal. -/
theorem new_null_pointer_spec_witness :
    ∃ r1 h r2 h2, sample_repository.new_null_pointer = .ok (r1, h) ∧
      r1.new_null_pointer = .ok (r2, h2) ∧
      h.strong_ptr_pos = 3 ∧ h2.strong_ptr_pos = 4 ∧
      weak_pointer.eq r2 h h2 = .ok true := by
  obtain ⟨r1, h, r2, h2, hn1, hn2⟩ := (new_null_pointer_spec sample_repository).2.1 rfl
  obtain ⟨hh, -, -, -, -, -, -, hsecond⟩ := (new_null_pointer_spec sample_repository).1 r1 h hn1
  obtain ⟨hh2, -⟩ := (new_null_pointer_spec r1).1 r2 h2 hn2
  have hlen : r1.strong_pointers.length = 4 := by
    have := ((new_null_pointer_spec sample_repository).1 r1 h hn1).2.1
    rw [this]
    rfl
  refine ⟨r1, h, r2, h2, hn1, hn2, ?_, ?_, (hsecond r2 h2 hn2).2⟩
  · rw [hh]
    rfl
  · rw [hh2, hlen]

/-! ## Deferred disposal -/

theorem attempt_dispose_element_of_pending_lt (r : repository T) (x : Nat)
    (hsize : r.strong_pointers.length < SIZE_MOD)
    (hx : x + 1 < r.strong_pointers.length)
    (h : ∀ p ∈ r.toDispose, p + 1 < r.strong_pointers.length) :
    r.attempt_dispose_element x = .ok { r with toDispose := insert x r.toDispose } := by
  unfold repository.attempt_dispose_element
  refine dispose_loop_of_pending_lt _ { r with toDispose := insert x r.toDispose } hsize ?_
  intro p hp
  rcases Finset.mem_insert.mp hp with rfl | hp
  · exact hx
  · exact h p hp

theorem map_emplace_append_of_lt (m : AliasMap) (k x : Nat) (h : ∀ e ∈ m, e.1 < k) :
    map_emplace m k x = m ++ [(k, {x})] := by
  induction m with
  | nil => rfl
  | cons e rest ih =>
    obtain ⟨k', t⟩ := e
    have hk : k' < k := h (k', t) (List.mem_cons_self _ _)
    have h1 : ¬ k < k' := by omega
    have h2 : ¬ k = k' := by omega
    simp [map_emplace, h1, h2, ih (fun e he => h e (List.mem_cons_of_mem _ he))]

theorem map_emplace_append_same (m : AliasMap) (k x : Nat) (s : Finset Nat)
    (h : ∀ e ∈ m, e.1 < k) :
    map_emplace (m ++ [(k, s)]) k x = m ++ [(k, insert x s)] := by
  induction m with
  | nil => simp [map_emplace]
  | cons e rest ih =>
    obtain ⟨k', t⟩ := e
    have hk : k' < k := h (k', t) (List.mem_cons_self _ _)
    have h1 : ¬ k < k' := by omega
    have h2 : ¬ k = k' := by omega
    simp [map_emplace, h1, h2, ih (fun e he => h e (List.mem_cons_of_mem _ he))]

theorem map_find_append_same (m : AliasMap) (k : Nat) (s : Finset Nat)
    (h : ∀ e ∈ m, e.1 < k) : map_find (m ++ [(k, s)]) k = some s := by
  induction m with
  | nil => simp [map_find]
  | cons e rest ih =>
    obtain ⟨k', t⟩ := e
    have hk : k' < k := h (k', t) (List.mem_cons_self _ _)
    have h2 : ¬ k' = k := by omega
    simp [map_find, h2, ih (fun e he => h e (List.mem_cons_of_mem _ he))]


/-- C19: on a well-formed repository, for a strong pointer `h` that is not the last one
and has counter 1, `decrement(h)` returns with the counter of `h` set to 0 and `h` added to
the pending set; the strong pointers, the contiguous memory, the alias map and the other
counters are unchanged, and `h` resolves as before. -/
theorem decrement_deferred (r : repository T) (hwf : r.WF) (h : Nat)
    (hlast : h + 1 < r.strong_pointers.length)
    (hcount : r.contiguous_memory_reference_count[h]? = some 1) :
    ∃ r1, r.decrement h = .ok r1 ∧
      r1.contiguous_memory_reference_count = r.contiguous_memory_reference_count.set h 0 ∧
      r1.toDispose = insert h r.toDispose ∧
      r1.strong_pointers = r.strong_pointers ∧
      r1.contiguous_memory = r.contiguous_memory ∧
      r1.contiguous_memory_to_multimap = r.contiguous_memory_to_multimap ∧
      r1.resolvePointer h = r.resolvePointer h := by
  have hlen := hwf.counts_length
  have hh : h < r.strong_pointers.length := by omega
  have hdisp := attempt_dispose_element_of_pending_lt
    ({ r with contiguous_memory_reference_count :=
        r.contiguous_memory_reference_count.set h 0 } : repository T) h
    hwf.pointers_size hlast hwf.pending_lt
  refine ⟨{ r with
      contiguous_memory_reference_count := r.contiguous_memory_reference_count.set h 0
      toDispose := insert h r.toDispose }, ?_, rfl, rfl, rfl, rfl, rfl, rfl⟩
  simp only [repository.decrement, hlen, ne_eq, not_true_eq_false, if_false, hh, if_true,
    vec_index, hcount, bind, Except.bind, pure, Except.pure, size_dec_one]
  have hget : (r.contiguous_memory_reference_count.set h 0)[h]? = some 0 := by
    simp [hlen, hh]
  simp only [hget, if_true]
  exact hdisp

/-- Witness of C19 on `sample_repository`: strong pointer 1 has counter 1 and is not the
last one; `decrement(1)` leaves it pending with counter 0. -/
theorem decrement_deferred_witness :
    ∃ r1, sample_repository.decrement 1 = .ok r1 ∧
      r1.contiguous_memory_reference_count = [0, 0, 1] ∧
      r1.toDispose = {0, 1} ∧
      r1.strong_pointers = [some 0, some 1, none] := by
  obtain ⟨r1, h1, h2, h3, h4, -⟩ :=
    decrement_deferred sample_repository sample_repository_WF 1 (by decide) rfl
  refine ⟨r1, h1, ?_, ?_, ?_⟩
  · rw [h2]
    rfl
  · rw [h3]
    decide
  · rw [h4]
    rfl

/-! ## Replacing the value of a handle -/

theorem set_append_singleton {α : Type} (l : List α) (x y : α) (p : Nat) (hp : p < l.length) :
    (l ++ [x]).set p y = l.set p y ++ [x] := by
  induction l generalizing p with
  | nil => simp at hp
  | cons a rest ih =>
    cases p with
    | zero => rfl
    | succ q =>
      simp only [List.cons_append, List.set_cons_succ]
      rw [ih q (by simpa using hp)]

theorem getElem?_append_singleton_length {α : Type} (l : List α) (x : α) :
    (l ++ [x])[l.length]? = some x := by
  rw [List.getElem?_append_right (le_refl _), Nat.sub_self]
  rfl

theorem size_dec_of_pos (n : Nat) (h0 : 0 < n) (h : n ≤ SIZE_MOD) : size_dec n = n - 1 := by
  unfold size_dec SIZE_MOD at *
  omega

/-- The loop of `attempt_dispose_element` stops at once when every pending strong pointer
is below the last one; the table may be as long as a `size_t` allows. -/
theorem dispose_loop_of_pending_lt_le (fuel : Nat) (r : repository T)
    (hsize : r.strong_pointers.length ≤ SIZE_MOD)
    (h : ∀ p ∈ r.toDispose, p + 1 < r.strong_pointers.length) :
    r.dispose_loop (fuel + 1) = .ok r := by
  have hne : ¬ r.toDispose.max = WithBot.some (size_dec r.strong_pointers.length) := by
    intro hmax
    have hmem : size_dec r.strong_pointers.length ∈ r.toDispose := Finset.mem_of_max hmax
    have hlt := h _ hmem
    have hpos : 0 < r.strong_pointers.length := by omega
    rw [size_dec_of_pos _ hpos hsize] at hlt
    omega
  rw [dispose_loop_succ, if_neg hne]

/-- The method `setGlobal` on a strong pointer `left` that is not the last one, when no
pending strong pointer is the last one: nothing is disposed. -/
theorem setGlobal_not_last (r : repository T) (left right : Nat) (v : Option Nat)
    (hsize : r.strong_pointers.length ≤ SIZE_MOD)
    (hleft : left + 1 < r.strong_pointers.length)
    (hright : r.strong_pointers[right]? = some v)
    (hpend : ∀ q ∈ r.toDispose, q + 1 < r.strong_pointers.length) :
    r.setGlobal left right = .ok
      { r with
        strong_pointers := r.strong_pointers.set left v
        contiguous_memory_to_multimap :=
          (v.map fun a => map_emplace r.contiguous_memory_to_multimap a left).getD
            r.contiguous_memory_to_multimap
        toDispose := r.toDispose.erase left } := by
  have hdisp : r.attempt_dispose_element left =
      .ok { r with toDispose := insert left r.toDispose } := by
    unfold repository.attempt_dispose_element
    refine dispose_loop_of_pending_lt_le _ { r with toDispose := insert left r.toDispose }
      hsize ?_
    intro p hp
    rcases Finset.mem_insert.mp hp with rfl | hp
    · exact hleft
    · exact hpend p hp
  have hl : left < r.strong_pointers.length := by omega
  have hget : (r.strong_pointers.set left v)[right]? = some v := by
    by_cases hlr : left = right
    · subst hlr
      simp [hl]
    · rw [List.getElem?_set_ne hlr]
      exact hright
  simp only [repository.setGlobal, hdisp, bind, Except.bind, vec_index, hright, hl,
    not_true_eq_false, if_false, hget, pure, Except.pure, Finset.erase_insert_eq_erase]
  cases v <;> simp

/-- The drop of the only handle of the last strong pointer, when the value it points to
has another alias: the strong pointer is removed and the value stays. -/
theorem decrement_last_aliased (mem : List T) (rc : List Nat) (sp : List (Option Nat))
    (M : AliasMap) (td : Finset Nat) (m : Nat) (s : Finset Nat)
    (hlen : rc.length = sp.length) (hsize : sp.length < SIZE_MOD)
    (hfind : map_find M m = some s) (hcard : s.card ≠ 1)
    (hpend : ∀ q ∈ td, q + 1 < sp.length) :
    ({ contiguous_memory := mem
       contiguous_memory_reference_count := rc ++ [1]
       strong_pointers := sp ++ [some m]
       contiguous_memory_to_multimap := M
       toDispose := td } : repository T).decrement sp.length = .ok
      { contiguous_memory := mem
        contiguous_memory_reference_count := rc
        strong_pointers := sp
        contiguous_memory_to_multimap :=
          (map_update M m fun t => t.erase sp.length).filterMap fun e =>
            if shift_set sp.length e.2 = ∅ then none else some (e.1, shift_set sp.length e.2)
        toDispose := td } := by
  have hmax : (insert sp.length td).max = WithBot.some sp.length :=
    max_insert_of_lt _ _ (fun p hp => by have := hpend p hp; omega)
  have hnotmem : sp.length ∉ td := by
    intro hp
    have := hpend _ hp
    omega
  have hrc : (rc ++ [1])[sp.length]? = some 1 := by
    rw [← hlen]
    exact getElem?_append_singleton_length rc 1
  have hrc0 : ((rc ++ [1]).set sp.length 0)[sp.length]? = some 0 := by
    simp [hlen]
  have hset : (rc ++ [1]).set sp.length 0 = rc ++ [0] := by
    rw [← hlen]
    simp
  have hrc00 : (rc ++ [0])[sp.length]? = some 0 := by
    rw [← hlen]
    exact getElem?_append_singleton_length rc 0
  have hstep :
      ({ contiguous_memory := mem, contiguous_memory_reference_count := rc ++ [0],
         strong_pointers := sp ++ [some m], contiguous_memory_to_multimap := M,
         toDispose := insert sp.length td } : repository T).dispose_step sp.length = .ok
        { contiguous_memory := mem, contiguous_memory_reference_count := rc,
          strong_pointers := sp,
          contiguous_memory_to_multimap :=
            (map_update M m fun t => t.erase sp.length).filterMap fun e =>
              if shift_set sp.length e.2 = ∅ then none
              else some (e.1, shift_set sp.length e.2),
          toDispose := insert sp.length td } := by
    simp only [repository.dispose_step, vec_at, getElem?_append_singleton_length,
      repository.dispose_alias, hfind, hcard, false_and, if_false, bind, Except.bind,
      repository.dispose_strong_ponter, List.length_append, List.length_singleton, hlen,
      Nat.lt_succ_self, and_self, if_true, pure, Except.pure, decide_False,
      Bool.false_eq_true, eraseIdx_append_singleton _ _ _ rfl,
      eraseIdx_append_singleton _ _ _ hlen.symm]
  simp only [repository.decrement, List.length_append, List.length_singleton, hlen, ne_eq,
    not_true_eq_false, if_false, Nat.lt_succ_self, if_true, vec_index, hrc, bind, Except.bind,
    pure, Except.pure, size_dec_one, hrc0, hset, hrc00, repository.attempt_dispose_element]
  rw [dispose_loop_succ]
  simp only [List.length_append, List.length_singleton, size_dec_succ _ hsize, hmax, if_true,
    hstep, Except.bind, Finset.erase_insert hnotmem]
  exact dispose_loop_of_pending_lt _
    { contiguous_memory := mem, contiguous_memory_reference_count := rc,
      strong_pointers := sp, contiguous_memory_to_multimap := _, toDispose := td }
    hsize hpend

/-- C12: on a well-formed repository and a strong pointer `p` inside the table,
`set_new_element(p, v)` is the sequence `h = new_element(v)`, `p.setGlobal(h)`, drop of `h`
given by the specification, it returns, and afterwards `p` resolves to `v`: the value is
appended to the contiguous memory, the target of `p` is the new offset, and the table and
the counters are as long as before. -/
theorem set_new_element_spec (r : repository T) (hwf : r.WF) (p : Nat)
    (hp : p < r.strong_pointers.length) (v : T) :
    r.set_new_element ⟨true, p⟩ v = replaceWith_sequence r ⟨true, p⟩ v ∧
    ∃ r3, r.set_new_element ⟨true, p⟩ v = .ok (r3, ⟨true, p⟩) ∧
      r3.resolvePointer p = .ok (some v) ∧
      weak_pointer.get r3 ⟨true, p⟩ = .ok (some v) ∧
      r3.contiguous_memory = r.contiguous_memory ++ [v] ∧
      r3.strong_pointers = r.strong_pointers.set p (some r.contiguous_memory.length) ∧
      r3.contiguous_memory_reference_count = r.contiguous_memory_reference_count ∧
      r3.toDispose = r.toDispose.erase p := by
  have hlen := hwf.counts_length
  have hkeys : ∀ e ∈ r.contiguous_memory_to_multimap, e.1 < r.contiguous_memory.length :=
    fun e he => WF_key_lt hwf he
  have hseq : r.set_new_element ⟨true, p⟩ v = replaceWith_sequence r ⟨true, p⟩ v := rfl
  refine ⟨hseq, ?_⟩
  have hglobal := setGlobal_not_last
    ({ r with
        contiguous_memory := r.contiguous_memory ++ [v]
        contiguous_memory_reference_count := r.contiguous_memory_reference_count ++ [1]
        strong_pointers := r.strong_pointers ++ [some r.contiguous_memory.length]
        contiguous_memory_to_multimap :=
          map_emplace r.contiguous_memory_to_multimap r.contiguous_memory.length
            r.strong_pointers.length } : repository T)
    p r.strong_pointers.length (some r.contiguous_memory.length)
    (by simpa using hwf.pointers_size) (by simpa using hp)
    (getElem?_append_singleton_length _ _)
    (fun q hq => by have := hwf.pending_lt q hq; simp; omega)
  have hfind : map_find
      (map_emplace
        (map_emplace r.contiguous_memory_to_multimap r.contiguous_memory.length
          r.strong_pointers.length) r.contiguous_memory.length p)
      r.contiguous_memory.length = some (insert p {r.strong_pointers.length}) := by
    rw [map_emplace_append_of_lt _ _ _ hkeys, map_emplace_append_same _ _ _ _ hkeys,
      map_find_append_same _ _ _ hkeys]
  have hcard : (insert p ({r.strong_pointers.length} : Finset Nat)).card ≠ 1 := by
    rw [Finset.card_insert_of_not_mem (by simp; omega)]
    simp
  have hdrop := decrement_last_aliased (r.contiguous_memory ++ [v])
    r.contiguous_memory_reference_count
    (r.strong_pointers.set p (some r.contiguous_memory.length)) _ (r.toDispose.erase p)
    r.contiguous_memory.length _ (by simpa using hlen) (by simpa using hwf.pointers_size)
    hfind hcard
    (fun q hq => by have := hwf.pending_lt q (Finset.mem_of_mem_erase hq); simpa using this)
  simp only [List.length_set] at hdrop
  rw [hseq]
  simp only [replaceWith_sequence, new_element_eq r v hlen, bind, Except.bind,
    weak_pointer.setGlobal, not_true_eq_false, if_false, hglobal,
    Option.map_some', Option.getD_some, pure, Except.pure, weak_pointer.dtor, if_true,
    set_append_singleton _ _ _ _ hp, hdrop]
  refine ⟨_, rfl, ?_, ?_, rfl, rfl, rfl, rfl⟩
  · rw [resolvePointer_of_lt _ _ (by simpa using hp)]
    simp [hp]
  · simp only [weak_pointer.get, if_true]
    rw [resolvePointer_of_lt _ _ (by simpa using hp)]
    simp [hp]

/-- Witness of C12 on `sample_repository`: `set_new_element` on strong pointer 1 with the
value 9 returns, and strong pointer 1 resolves to 9. -/
theorem set_new_element_spec_witness :
    ∃ r3, sample_repository.set_new_element ⟨true, 1⟩ 9 = .ok (r3, ⟨true, 1⟩) ∧
      r3.resolvePointer 1 = .ok (some 9) ∧
      r3.contiguous_memory = [5, 5, 9] ∧
      r3.strong_pointers = [some 0, some 2, none] := by
  obtain ⟨-, r3, h1, h2, -, h4, h5, -⟩ :=
    set_new_element_spec sample_repository sample_repository_WF 1 (by decide) 9
  exact ⟨r3, h1, h2, h4, h5⟩

/-! ## Counters and strong pointers -/

theorem dispose_strong_ponter_counts {r r2 : repository T} {left : Nat}
    (h : r.dispose_strong_ponter left = .ok r2) :
    r2.contiguous_memory_reference_count = r.contiguous_memory_reference_count.eraseIdx left ∧
    left < r.contiguous_memory_reference_count.length := by
  unfold repository.dispose_strong_ponter at h
  split at h
  · rename_i hlt
    simp only [pure, Except.pure, Except.ok.injEq] at h
    subst h
    exact ⟨rfl, hlt.2⟩
  · cases h

theorem dispose_value_counts {r r2 : repository T} {pos : Nat}
    (h : r.dispose_value pos = .ok r2) :
    r2.contiguous_memory_reference_count = r.contiguous_memory_reference_count ∧
    r2.toDispose = r.toDispose := by
  unfold repository.dispose_value at h
  cases hc : vec_index r.contiguous_memory_reference_count pos with
  | error e => simp [hc, bind, Except.bind] at h
  | ok c =>
    simp only [hc, bind, Except.bind] at h
    split at h
    · cases h
    · split at h
      · cases h
      · split at h
        · cases h
        · split at h
          · cases h
          · simp only [pure, Except.pure, Except.ok.injEq] at h
            subst h
            exact ⟨rfl, rfl⟩

theorem dispose_step_counts_length {r r3 : repository T} {left : Nat}
    (h : r.dispose_step left = .ok r3) :
    r3.contiguous_memory_reference_count.length + 1 =
      r.contiguous_memory_reference_count.length := by
  unfold repository.dispose_step at h
  cases href : vec_at r.strong_pointers left with
  | error e => simp [href, bind, Except.bind] at h
  | ok ref =>
    cases hal : r.dispose_alias left ref with
    | error e => simp [href, hal, bind, Except.bind] at h
    | ok p =>
      obtain ⟨r1, b, a⟩ := p
      cases hsp : r1.dispose_strong_ponter left with
      | error e => simp [href, hal, hsp, bind, Except.bind] at h
      | ok r2 =>
        simp only [href, hal, hsp, bind, Except.bind] at h
        have h1 := (dispose_alias_ok hal).2.1
        obtain ⟨h2, hlt⟩ := dispose_strong_ponter_counts hsp
        have hlen : r2.contiguous_memory_reference_count.length + 1 =
            r.contiguous_memory_reference_count.length := by
          rw [h2, List.length_eraseIdx, h1] at *
          simp only [hlt, if_true]
          omega
        cases b with
        | true =>
          simp only [if_true] at h
          rw [(dispose_value_counts h).1]
          exact hlen
        | false =>
          simp only [Bool.false_eq_true, if_false, pure, Except.pure, Except.ok.injEq] at h
          subst h
          exact hlen

theorem dispose_loop_counts_length (fuel : Nat) :
    ∀ r r1 : repository T, r.dispose_loop fuel = .ok r1 →
      r.contiguous_memory_reference_count.length = r.strong_pointers.length →
      r1.contiguous_memory_reference_count.length = r1.strong_pointers.length := by
  induction fuel with
  | zero => intro r r1 h; simp [repository.dispose_loop] at h
  | succ n ih =>
    intro r r1 h hlen
    rw [dispose_loop_succ] at h
    split at h
    · cases hstep : r.dispose_step (size_dec r.strong_pointers.length) with
      | error e => simp [hstep, Except.bind] at h
      | ok r3 =>
        simp only [hstep, Except.bind] at h
        refine ih _ r1 h ?_
        have h1 := dispose_step_length hstep
        have h2 := dispose_step_counts_length hstep
        simp only
        omega
    · simp only [Except.ok.injEq] at h
      subst h
      exact hlen

theorem attempt_dispose_element_counts_length {r r1 : repository T} {x : Nat}
    (h : r.attempt_dispose_element x = .ok r1)
    (hlen : r.contiguous_memory_reference_count.length = r.strong_pointers.length) :
    r1.contiguous_memory_reference_count.length = r1.strong_pointers.length :=
  dispose_loop_counts_length _ _ r1 h hlen

theorem increment_counts_length {r r1 : repository T} {ptr : Nat}
    (h : r.increment ptr = .ok r1) :
    r1.contiguous_memory_reference_count.length = r1.strong_pointers.length := by
  unfold repository.increment at h
  split at h
  · cases h
  · rename_i hlen
    simp only [ne_eq, not_not] at hlen
    split at h
    · cases hc : vec_index r.contiguous_memory_reference_count ptr with
      | error e => simp [hc, bind, Except.bind] at h
      | ok c =>
        simp only [hc, bind, Except.bind, pure, Except.pure, Except.ok.injEq] at h
        subst h
        simpa using hlen
    · simp only [pure, Except.pure, Except.ok.injEq] at h
      subst h
      exact hlen

theorem decrement_counts_length {r r1 : repository T} {ptr : Nat}
    (h : r.decrement ptr = .ok r1) :
    r1.contiguous_memory_reference_count.length = r1.strong_pointers.length := by
  unfold repository.decrement at h
  split at h
  · cases h
  · rename_i hlen
    simp only [ne_eq, not_not] at hlen
    simp only [bind, Except.bind] at h
    split at h
    · cases h
    · rename_i r0 hr0
      have hlen0 : r0.contiguous_memory_reference_count.length = r0.strong_pointers.length := by
        split at hr0
        · cases hc : vec_index r.contiguous_memory_reference_count ptr with
          | error e => simp [hc] at hr0
          | ok c =>
            simp only [hc, pure, Except.pure, Except.ok.injEq] at hr0
            subst hr0
            simpa using hlen
        · simp only [pure, Except.pure, Except.ok.injEq] at hr0
          subst hr0
          exact hlen
      split at h
      · cases h
      · split at h
        · exact attempt_dispose_element_counts_length h hlen0
        · simp only [pure, Except.pure, Except.ok.injEq] at h
          subst h
          exact hlen0

theorem setGlobal_counts_length {r r1 : repository T} {left right : Nat}
    (h : r.setGlobal left right = .ok r1)
    (hlen : r.contiguous_memory_reference_count.length = r.strong_pointers.length) :
    r1.contiguous_memory_reference_count.length = r1.strong_pointers.length := by
  unfold repository.setGlobal at h
  simp only [bind, Except.bind] at h
  split at h
  · cases h
  · rename_i r0 hr0
    have hlen0 := attempt_dispose_element_counts_length hr0 hlen
    split at h
    · cases h
    · split at h
      · cases h
      · split at h
        · cases h
        · rename_i x hx
          simp only [pure, Except.pure, Except.ok.injEq] at h
          subst h
          cases x <;> simpa using hlen0

theorem ctor_counts_length {r r1 : repository T} {e : Bool} {pos : Nat} {h : weak_pointer}
    (hc : weak_pointer.ctor r e pos = .ok (r1, h))
    (hlen : r.contiguous_memory_reference_count.length = r.strong_pointers.length) :
    r1.contiguous_memory_reference_count.length = r1.strong_pointers.length := by
  unfold weak_pointer.ctor at hc
  cases e with
  | true =>
    cases hi : r.increment pos with
    | error err => simp [hi, bind, Except.bind] at hc
    | ok r0 =>
      simp only [hi, if_true, bind, Except.bind, pure, Except.pure, Except.ok.injEq,
        Prod.mk.injEq] at hc
      obtain ⟨rfl, -⟩ := hc
      exact increment_counts_length hi
  | false =>
    simp only [Bool.false_eq_true, if_false, bind, Except.bind, pure, Except.pure,
      Except.ok.injEq, Prod.mk.injEq] at hc
    obtain ⟨rfl, -⟩ := hc
    exact hlen

theorem dtor_counts_length {r r1 : repository T} {h : weak_pointer}
    (hd : weak_pointer.dtor r h = .ok r1)
    (hlen : r.contiguous_memory_reference_count.length = r.strong_pointers.length) :
    r1.contiguous_memory_reference_count.length = r1.strong_pointers.length := by
  unfold weak_pointer.dtor at hd
  split at hd
  · exact decrement_counts_length hd
  · simp only [pure, Except.pure, Except.ok.injEq] at hd
    subst hd
    exact hlen

theorem weak_setGlobal_counts_length {r r1 : repository T} {p q p1 : weak_pointer}
    (hs : weak_pointer.setGlobal r p q = .ok (r1, p1))
    (hlen : r.contiguous_memory_reference_count.length = r.strong_pointers.length) :
    r1.contiguous_memory_reference_count.length = r1.strong_pointers.length := by
  unfold weak_pointer.setGlobal at hs
  split at hs
  · cases hs
  · split at hs
    · cases hs
    · simp only [bind, Except.bind] at hs
      split at hs
      · cases hs
      · rename_i r0 hr0
        simp only [pure, Except.pure, Except.ok.injEq, Prod.mk.injEq] at hs
        obtain ⟨rfl, -⟩ := hs
        exact setGlobal_counts_length hr0 hlen

theorem new_element_counts_length {r r1 : repository T} {v : T} {h : weak_pointer}
    (hn : r.new_element v = .ok (r1, h))
    (hlen : r.contiguous_memory_reference_count.length = r.strong_pointers.length) :
    r1.contiguous_memory_reference_count.length = r1.strong_pointers.length := by
  unfold repository.new_element at hn
  exact ctor_counts_length hn (by simpa using hlen)

theorem new_null_pointer_counts_length {r r1 : repository T} {h : weak_pointer}
    (hn : r.new_null_pointer = .ok (r1, h))
    (hlen : r.contiguous_memory_reference_count.length = r.strong_pointers.length) :
    r1.contiguous_memory_reference_count.length = r1.strong_pointers.length := by
  unfold repository.new_null_pointer at hn
  exact ctor_counts_length hn (by simpa using hlen)

theorem set_new_element_counts_length {r r1 : repository T} {ptr h : weak_pointer} {v : T}
    (hn : r.set_new_element ptr v = .ok (r1, h))
    (hlen : r.contiguous_memory_reference_count.length = r.strong_pointers.length) :
    r1.contiguous_memory_reference_count.length = r1.strong_pointers.length := by
  have hseq : r.set_new_element ptr v = replaceWith_sequence r ptr v := rfl
  rw [hseq] at hn
  unfold replaceWith_sequence at hn
  simp only [bind, Except.bind] at hn
  split at hn
  · cases hn
  · rename_i p1 hp1
    obtain ⟨ra, el⟩ := p1
    have hla := new_element_counts_length hp1 hlen
    simp only at hn
    split at hn
    · cases hn
    · rename_i p2 hp2
      obtain ⟨rb, pb⟩ := p2
      have hlb := weak_setGlobal_counts_length hp2 hla
      simp only at hn
      split at hn
      · cases hn
      · rename_i rc hrc
        simp only [pure, Except.pure, Except.ok.injEq, Prod.mk.injEq] at hn
        obtain ⟨rfl, -⟩ := hn
        exact dtor_counts_length hrc hlb

/-- C13: each of `new_element`, `new_null_pointer`, `set_new_element`, `increment`,
`decrement` (with the disposal it triggers), `setGlobal` and `clear` returns a repository
with as many counters as strong pointers when it starts from one, and so every repository
reachable from the empty one has as many counters as strong pointers. -/
theorem counts_length_invariant :
    (∀ (r r1 : repository T) (v : T) (h : weak_pointer),
      r.contiguous_memory_reference_count.length = r.strong_pointers.length →
      r.new_element v = .ok (r1, h) →
      r1.contiguous_memory_reference_count.length = r1.strong_pointers.length) ∧
    (∀ (r r1 : repository T) (h : weak_pointer),
      r.contiguous_memory_reference_count.length = r.strong_pointers.length →
      r.new_null_pointer = .ok (r1, h) →
      r1.contiguous_memory_reference_count.length = r1.strong_pointers.length) ∧
    (∀ (r r1 : repository T) (ptr h : weak_pointer) (v : T),
      r.contiguous_memory_reference_count.length = r.strong_pointers.length →
      r.set_new_element ptr v = .ok (r1, h) →
      r1.contiguous_memory_reference_count.length = r1.strong_pointers.length) ∧
    (∀ (r r1 : repository T) (ptr : Nat),
      r.contiguous_memory_reference_count.length = r.strong_pointers.length →
      r.increment ptr = .ok r1 →
      r1.contiguous_memory_reference_count.length = r1.strong_pointers.length) ∧
    (∀ (r r1 : repository T) (ptr : Nat),
      r.contiguous_memory_reference_count.length = r.strong_pointers.length →
      r.decrement ptr = .ok r1 →
      r1.contiguous_memory_reference_count.length = r1.strong_pointers.length) ∧
    (∀ (r r1 : repository T) (left right : Nat),
      r.contiguous_memory_reference_count.length = r.strong_pointers.length →
      r.setGlobal left right = .ok r1 →
      r1.contiguous_memory_reference_count.length = r1.strong_pointers.length) ∧
    (∀ r : repository T,
      r.clear.contiguous_memory_reference_count.length = r.clear.strong_pointers.length) ∧
    (∀ r : repository T, r.Reachable →
      r.contiguous_memory_reference_count.length = r.strong_pointers.length) := by
  refine ⟨fun r r1 v h hlen hn => new_element_counts_length hn hlen,
    fun r r1 h hlen hn => new_null_pointer_counts_length hn hlen,
    fun r r1 ptr h v hlen hn => set_new_element_counts_length hn hlen,
    fun r r1 ptr _ hn => increment_counts_length hn,
    fun r r1 ptr _ hn => decrement_counts_length hn,
    fun r r1 left right hlen hn => setGlobal_counts_length hn hlen,
    fun r => rfl, ?_⟩
  intro r hr
  induction hr with
  | empty => rfl
  | new_element v _ hn ih => exact new_element_counts_length hn ih
  | new_null_pointer _ hn ih => exact new_null_pointer_counts_length hn ih
  | set_new_element ptr v _ hn ih => exact set_new_element_counts_length hn ih
  | increment ptr _ hn _ => exact increment_counts_length hn
  | decrement ptr _ hn _ => exact decrement_counts_length hn
  | setGlobal left right _ hn ih => exact setGlobal_counts_length hn ih
  | clear _ _ => rfl

/-- Witness of C13: the repository after `new_element(23)` and `new_null_pointer()` is
reachable and has two counters for its two strong pointers. -/
theorem counts_length_invariant_witness :
    (⟨[23], [1, 1], [some 0, none], [(0, {0})], ∅⟩ : repository Nat).Reachable ∧
    (⟨[23], [1, 1], [some 0, none], [(0, {0})], ∅⟩ :
      repository Nat).contiguous_memory_reference_count.length = 2 := by
  have h1 : (⟨[23], [1], [some 0], [(0, {0})], ∅⟩ : repository Nat).Reachable :=
    repository.Reachable.new_element 23 repository.Reachable.empty rfl
  have h2 : (⟨[23], [1, 1], [some 0, none], [(0, {0})], ∅⟩ : repository Nat).Reachable :=
    repository.Reachable.new_null_pointer h1 rfl
  exact ⟨h2, (counts_length_invariant.2.2.2.2.2.2.2 _ h2).trans rfl⟩

/-! ## Reachable repositories that break the invariants of the data model -/

/-- C14 (the code departs from the claim): `setGlobal` never erases `left` from the alias
set of its previous target. After `a = new_element(7)`, `n = new_null_pointer()` and
`a.setGlobal(n)`, strong pointer 0 is null and still listed in the alias set of offset 0.
After `a = new_element(7)`, `b = new_element(9)`, `n = new_null_pointer()` and
`a.setGlobal(b)`, strong pointer 0 has target 1 and is listed in the alias sets of both
offsets 0 and 1. -/
theorem setGlobal_breaks_alias_sets :
    (∃ r3 a,
      (do
        let (r1, a) ← (repository.empty : repository Nat).new_element 7
        let (r2, n) ← r1.new_null_pointer
        weak_pointer.setGlobal r2 a n) = .ok (r3, a) ∧
      a.strong_ptr_pos = 0 ∧
      r3.strong_pointers = [none, none] ∧
      r3.contiguous_memory_reference_count = [1, 1] ∧
      map_find r3.contiguous_memory_to_multimap 0 = some {0}) ∧
    (∃ r4 a,
      (do
        let (r1, a) ← (repository.empty : repository Nat).new_element 7
        let (r2, b) ← r1.new_element 9
        let (r3, _) ← r2.new_null_pointer
        weak_pointer.setGlobal r3 a b) = .ok (r4, a) ∧
      a.strong_ptr_pos = 0 ∧
      r4.strong_pointers = [some 1, some 1, none] ∧
      r4.contiguous_memory_reference_count = [1, 1, 1] ∧
      map_find r4.contiguous_memory_to_multimap 0 = some {0} ∧
      map_find r4.contiguous_memory_to_multimap 1 = some {0, 1}) :=
  ⟨⟨_, _, rfl, rfl, rfl, rfl, rfl⟩, ⟨_, _, rfl, rfl, rfl, rfl, rfl, rfl⟩⟩

/-- C15 (the code departs from the claim): after `n = new_null_pointer()`,
`a = new_element(10)`, `b = new_element(11)`, `c = new_element(12)`, `n.setGlobal(c)`,
`n.setGlobal(a)` and the drops of `c`, `a` and `b`, the handle `n` is alive on strong
pointer 0 with counter 1, but the disposal of the value at offset 1 has decremented the
target 0 of strong pointer 0, which was still listed under offset 2: the target is
`2^64 - 1`, outside the contiguous memory `[10, 12]`, and `n` resolves to nothing. -/
theorem live_handle_target_outside_memory :
    ∃ r9 n,
      (do
        let (r1, n) ← (repository.empty : repository Nat).new_null_pointer
        let (r2, a) ← r1.new_element 10
        let (r3, b) ← r2.new_element 11
        let (r4, c) ← r3.new_element 12
        let (r5, n) ← weak_pointer.setGlobal r4 n c
        let (r6, n) ← weak_pointer.setGlobal r5 n a
        let r7 ← weak_pointer.dtor r6 c
        let r8 ← weak_pointer.dtor r7 a
        let r9 ← weak_pointer.dtor r8 b
        pure (r9, n)) = .ok (r9, n) ∧
      n = ⟨true, 0⟩ ∧
      r9.contiguous_memory = [10, 12] ∧
      r9.contiguous_memory_reference_count = [1] ∧
      r9.strong_pointers = [some 18446744073709551615] ∧
      weak_pointer.get r9 n = .ok none :=
  ⟨_, _, rfl, rfl, rfl, rfl, rfl, rfl⟩

/-- C16 (the code departs from the claim): after `new_null_pointer()`, `new_element(1)` and
`b = new_element(2)`, all alive, the value at offset 1 is aliased by strong pointer 2
alone. The drop of `b` brings the counter of strong pointer 2 to zero and disposes the
value, and the check `assert(contiguous_memory_reference_count[pos] == 0)` of
`dispose_value` fails: with `pos = 1` it reads the counter 1 of strong pointer 1, which
points to the other value. -/
theorem dispose_value_checks_other_counter :
    ∃ r3 b,
      (do
        let (r1, _) ← (repository.empty : repository Nat).new_null_pointer
        let (r2, _) ← r1.new_element 1
        r2.new_element 2) = .ok (r3, b) ∧
      b.strong_ptr_pos = 2 ∧
      r3.strong_pointers = [none, some 0, some 1] ∧
      r3.contiguous_memory_reference_count = [1, 1, 1] ∧
      map_find r3.contiguous_memory_to_multimap 1 = some {2} ∧
      weak_pointer.dtor r3 b = .error .assertion :=
  ⟨_, _, rfl, rfl, rfl, rfl, rfl, rfl⟩

/-! ## The passes of the disposal loop -/

theorem dispose_loop_trace_succ (fuel : Nat) (r : repository T) :
    r.dispose_loop_trace (fuel + 1) =
      if r.toDispose.max = WithBot.some (size_dec r.strong_pointers.length) then
        (r.dispose_step (size_dec r.strong_pointers.length)).bind fun r3 =>
          (repository.dispose_loop_trace fuel
            { r3 with toDispose := r3.toDispose.erase (size_dec r.strong_pointers.length) }).bind
            fun p => .ok (p.1,
              { left := size_dec r.strong_pointers.length
                pointers_before := r.strong_pointers.length
                pointers_after := r3.strong_pointers.length
                memory_before := r.contiguous_memory.length
                memory_after := r3.contiguous_memory.length } :: p.2)
      else .ok (r, []) := by
  rw [repository.dispose_loop_trace]
  rfl

theorem dispose_loop_trace_fst (fuel : Nat) :
    ∀ r : repository T, (r.dispose_loop_trace fuel).map Prod.fst = r.dispose_loop fuel := by
  induction fuel with
  | zero => intro r; rfl
  | succ n ih =>
    intro r
    rw [dispose_loop_trace_succ, dispose_loop_succ]
    split
    · cases hstep : r.dispose_step (size_dec r.strong_pointers.length) with
      | error e => rfl
      | ok r3 =>
        simp only [Except.bind]
        rw [← ih]
        cases repository.dispose_loop_trace n
          { r3 with toDispose := r3.toDispose.erase (size_dec r.strong_pointers.length) } with
        | error e => rfl
        | ok p => rfl
    · rfl

theorem dispose_value_memory_length {r r2 : repository T} {pos : Nat}
    (h : r.dispose_value pos = .ok r2) :
    r2.contiguous_memory.length + 1 = r.contiguous_memory.length := by
  unfold repository.dispose_value at h
  cases hc : vec_index r.contiguous_memory_reference_count pos with
  | error e => simp [hc, bind, Except.bind] at h
  | ok c =>
    simp only [hc, bind, Except.bind] at h
    split at h
    · cases h
    · split at h
      · cases h
      · rename_i hpos
        split at h
        · cases h
        · split at h
          · cases h
          · simp only [pure, Except.pure, Except.ok.injEq] at h
            subst h
            simp only [not_not] at hpos
            simp only [List.length_eraseIdx, hpos, if_true]
            omega

theorem dispose_strong_ponter_memory {r r2 : repository T} {left : Nat}
    (h : r.dispose_strong_ponter left = .ok r2) :
    r2.contiguous_memory = r.contiguous_memory ∧ r2.toDispose = r.toDispose := by
  unfold repository.dispose_strong_ponter at h
  split at h
  · simp only [pure, Except.pure, Except.ok.injEq] at h
    subst h
    exact ⟨rfl, rfl⟩
  · cases h

theorem dispose_step_memory_length {r r3 : repository T} {left : Nat}
    (h : r.dispose_step left = .ok r3) :
    r3.contiguous_memory.length ≤ r.contiguous_memory.length ∧
    r.contiguous_memory.length ≤ r3.contiguous_memory.length + 1 ∧
    r3.toDispose = r.toDispose ∧ left < r.strong_pointers.length := by
  unfold repository.dispose_step at h
  cases href : vec_at r.strong_pointers left with
  | error e => simp [href, bind, Except.bind] at h
  | ok ref =>
    have hleft : left < r.strong_pointers.length := by
      unfold vec_at at href
      by_contra hl
      rw [List.getElem?_eq_none (Nat.le_of_not_lt hl)] at href
      cases href
    cases hal : r.dispose_alias left ref with
    | error e => simp [href, hal, bind, Except.bind] at h
    | ok p =>
      obtain ⟨r1, b, a⟩ := p
      cases hsp : r1.dispose_strong_ponter left with
      | error e => simp [href, hal, hsp, bind, Except.bind] at h
      | ok r2 =>
        simp only [href, hal, hsp, bind, Except.bind] at h
        obtain ⟨-, -, h1, h1t⟩ := dispose_alias_ok hal
        obtain ⟨h2, h2t⟩ := dispose_strong_ponter_memory hsp
        cases b with
        | true =>
          simp only [if_true] at h
          have h3 := dispose_value_memory_length h
          have h3t := (dispose_value_counts h).2
          rw [h2, h1] at h3
          refine ⟨by omega, by omega, ?_, hleft⟩
          rw [h3t, h2t, h1t]
        | false =>
          simp only [Bool.false_eq_true, if_false, pure, Except.pure, Except.ok.injEq] at h
          subst h
          rw [h2, h1, h2t, h1t]
          exact ⟨le_refl _, Nat.le_succ _, rfl, hleft⟩

theorem max_eq_of_greatest (s : Finset Nat) (p : Nat) (hp : p ∈ s) (h : ∀ q ∈ s, q ≤ p) :
    s.max = WithBot.some p := by
  apply le_antisymm
  · apply Finset.max_le
    intro a ha
    exact WithBot.coe_le_coe.mpr (h a ha)
  · exact Finset.le_max hp

theorem le_of_max_eq (s : Finset Nat) (p q : Nat) (hmax : s.max = WithBot.some p)
    (hq : q ∈ s) : q ≤ p := by
  have := Finset.le_max hq
  rw [hmax] at this
  exact WithBot.coe_le_coe.mp this

/-- The passes of the disposal loop: what the record says about a run that returns. -/
theorem dispose_loop_trace_spec (fuel : Nat) :
    ∀ (r r1 : repository T) (passes : List Pass),
      r.strong_pointers.length ≤ SIZE_MOD →
      r.dispose_loop_trace fuel = .ok (r1, passes) →
      r1.strong_pointers.length + passes.length = r.strong_pointers.length ∧
      (∀ e ∈ passes, e.left ∈ r.toDispose ∧ r1.strong_pointers.length ≤ e.left ∧
        e.left < r.strong_pointers.length ∧
        e.left + 1 = e.pointers_before ∧ e.pointers_after + 1 = e.pointers_before ∧
        e.memory_after ≤ e.memory_before ∧ e.memory_before ≤ e.memory_after + 1) ∧
      (passes.map Pass.left).Sorted (· > ·) ∧
      (∀ p, p ∈ r1.toDispose ↔ p ∈ r.toDispose ∧ p ∉ passes.map Pass.left) ∧
      r1.toDispose.max ≠ WithBot.some (size_dec r1.strong_pointers.length) ∧
      ((∀ p ∈ r.toDispose, p < r.strong_pointers.length) →
        ∀ p ∈ r1.toDispose, p + 1 < r1.strong_pointers.length) := by
  induction fuel with
  | zero => intro r r1 passes _ h; simp [repository.dispose_loop_trace] at h
  | succ n ih =>
    intro r r1 passes hsize h
    rw [dispose_loop_trace_succ] at h
    split at h
    · rename_i hcond
      cases hstep : r.dispose_step (size_dec r.strong_pointers.length) with
      | error e => simp [hstep, Except.bind] at h
      | ok r3 =>
        simp only [hstep, Except.bind] at h
        split at h
        · cases h
        · rename_i p hp
          obtain ⟨r4, rest⟩ := p
          simp only [Except.ok.injEq, Prod.mk.injEq] at h
          obtain ⟨rfl, rfl⟩ := h
          have hlen := dispose_step_length hstep
          obtain ⟨hm1, hm2, htd, hleft⟩ := dispose_step_memory_length hstep
          have hpos : 0 < r.strong_pointers.length := by omega
          have hdec : size_dec r.strong_pointers.length = r.strong_pointers.length - 1 :=
            size_dec_of_pos _ hpos hsize
          have hmem : size_dec r.strong_pointers.length ∈ r.toDispose :=
            Finset.mem_of_max hcond
          obtain ⟨i1, i2, i3, i4, i5, i6⟩ := ih _ r4 rest (by simp only; omega) hp
          simp only at i1 i2 i4 i6
          refine ⟨?_, ?_, ?_, ?_, i5, ?_⟩
          · simp only [List.length_cons]
            omega
          · intro e he
            rcases List.mem_cons.mp he with rfl | he
            · refine ⟨hmem, ?_, hleft, ?_, ?_, hm1, hm2⟩
              · simp only
                omega
              · simp only
                omega
              · simp only
                omega
            · obtain ⟨j1, j2, j3, j4⟩ := i2 e he
              refine ⟨?_, j2, by omega, j4⟩
              rw [htd] at j1
              exact Finset.mem_of_mem_erase j1
          · simp only [List.map_cons, List.sorted_cons]
            refine ⟨?_, i3⟩
            intro b hb
            obtain ⟨e, he, rfl⟩ := List.mem_map.mp hb
            have := (i2 e he).2.2.1
            omega
          · intro q
            rw [i4, htd]
            simp only [Finset.mem_erase, List.map_cons, List.mem_cons, not_or]
            constructor
            · rintro ⟨⟨a, b⟩, c⟩
              exact ⟨b, a, c⟩
            · rintro ⟨b, a, c⟩
              exact ⟨⟨a, b⟩, c⟩
          · intro hall
            apply i6
            intro q hq
            rw [htd] at hq
            have hq1 := Finset.ne_of_mem_erase hq
            have hq2 := hall q (Finset.mem_of_mem_erase hq)
            omega
    · rename_i hcond
      simp only [Except.ok.injEq, Prod.mk.injEq] at h
      obtain ⟨rfl, rfl⟩ := h
      refine ⟨rfl, ?_, ?_, ?_, hcond, ?_⟩
      · intro e he
        cases he
      · simp
      · intro p
        simp
      · intro hall p hp
        have hlt := hall p hp
        by_contra hcon
        have hpos : 0 < r.strong_pointers.length := by omega
        have hdec := size_dec_of_pos _ hpos hsize
        apply hcond
        rw [hdec]
        apply max_eq_of_greatest
        · have : p = r.strong_pointers.length - 1 := by omega
          rw [← this]
          exact hp
        · intro q hq
          have := hall q hq
          omega

/-- Passes of the disposal loop: from a repository whose table fits a `size_t` and whose
pending strong pointers are all inside the table, `attempt_dispose_element(x)` never meets
the bound on the passes of the loop, so it returns or stops on a fault of the source.
When it returns, the strong pointers it disposed were pending, were disposed in strictly
decreasing order, each pass removed exactly one strong pointer (the last one) and at most
one value, and on return the greatest pending strong pointer is not the last strong
pointer; when `x` is inside the table every pending strong pointer is strictly below the
last one. Whether the call returns is not stated here. -/
theorem attempt_dispose_element_passes (r : repository T) (x : Nat)
    (hsize : r.strong_pointers.length < SIZE_MOD)
    (hpend : ∀ p ∈ r.toDispose, p < r.strong_pointers.length) :
    r.attempt_dispose_element x ≠ .error .out_of_fuel ∧
    (r.attempt_dispose_element_trace x).map Prod.fst = r.attempt_dispose_element x ∧
    ∀ (r1 : repository T) (passes : List Pass),
      r.attempt_dispose_element_trace x = .ok (r1, passes) →
      r1.strong_pointers.length + passes.length = r.strong_pointers.length ∧
      (∀ e ∈ passes, e.left ∈ insert x r.toDispose ∧
        e.left + 1 = e.pointers_before ∧ e.pointers_after + 1 = e.pointers_before ∧
        e.memory_after ≤ e.memory_before ∧ e.memory_before ≤ e.memory_after + 1) ∧
      (passes.map Pass.left).Sorted (· > ·) ∧
      (∀ p, p ∈ r1.toDispose ↔ p ∈ insert x r.toDispose ∧ p ∉ passes.map Pass.left) ∧
      r1.toDispose.max ≠ WithBot.some (size_dec r1.strong_pointers.length) ∧
      (x < r.strong_pointers.length →
        ∀ p ∈ r1.toDispose, p + 1 < r1.strong_pointers.length) := by
  refine ⟨attempt_dispose_element_fuel r x, dispose_loop_trace_fst _ _, ?_⟩
  intro r1 passes h
  obtain ⟨h1, h2, h3, h4, h5, h6⟩ :=
    dispose_loop_trace_spec _ _ r1 passes (by simpa using hsize.le) h
  refine ⟨h1, ?_, h3, h4, h5, ?_⟩
  · intro e he
    obtain ⟨j1, -, -, j4, j5, j6, j7⟩ := h2 e he
    exact ⟨j1, j4, j5, j6, j7⟩
  · intro hx
    apply h6
    intro p hp
    rcases Finset.mem_insert.mp hp with rfl | hp
    · exact hx
    · exact hpend p hp

/-- A run of the disposal loop that returns: with strong pointer 0 pending and strong
pointer 1 the only alias of the value, `attempt_dispose_element(1)` makes two passes, on 1
(removing the value) and then on 0, and leaves the table and the pending set empty. -/
theorem attempt_dispose_element_passes_witness :
    ∃ r1 passes,
      (⟨[7], [0, 0], [none, some 0], [(0, {1})], {0}⟩ :
        repository Nat).attempt_dispose_element_trace 1 = .ok (r1, passes) ∧
      passes.map Pass.left = [1, 0] ∧
      passes.map Pass.memory_after = [0, 0] ∧
      r1.strong_pointers.length + 2 = 2 ∧
      (∀ p ∈ r1.toDispose, p + 1 < r1.strong_pointers.length) := by
  have htr : (⟨[7], [0, 0], [none, some 0], [(0, {1})], {0}⟩ :
      repository Nat).attempt_dispose_element_trace 1 =
      .ok (⟨[], [], [], [], ∅⟩, [⟨1, 2, 1, 1, 0⟩, ⟨0, 1, 0, 0, 0⟩]) := rfl
  have hsize : (⟨[7], [0, 0], [none, some 0], [(0, {1})], {0}⟩ :
      repository Nat).strong_pointers.length < SIZE_MOD := by
    simp [SIZE_MOD]
  have h := (attempt_dispose_element_passes
    (⟨[7], [0, 0], [none, some 0], [(0, {1})], {0}⟩ : repository Nat) 1
    hsize (by simp)).2.2 _ _ htr
  exact ⟨_, _, htr, rfl, rfl, h.1, h.2.2.2.2.2 (by simp)⟩

/-! ## The tree test -/

/-- C17: in `TreeTest.test1`, after the insertion of `[5, 3, 2, 1]` through a null `root`
handle, `root` resolves to the node 5 whose left child resolves to 3, whose left child
resolves to 2, whose left child resolves to 1, and every other child is null; after the
insertion of `[4, 3, 2, 0]` through the same `root` the four nodes are where they were and
the new nodes 4, 3, 2, 0 hang below the right child of the node 3. No fault occurs, the
bound on the recursion is not met, and the contiguous memory holds exactly the four, then
eight, nodes that were created, so no value was disposed. -/
theorem tree_test_shapes :
    (∃ r root, test1_first = .ok (r, root) ∧
      r.contiguous_memory.map tree.value = [5, 3, 2, 1] ∧
      tree_shape 16 r root =
        .ok (Shape.node 5 (Shape.node 3 (Shape.node 2 (Shape.node 1 Shape.leaf Shape.leaf) Shape.leaf) Shape.leaf) Shape.leaf)) ∧
    (∃ r root, test1_second = .ok (r, root) ∧
      r.contiguous_memory.map tree.value = [5, 3, 2, 1, 4, 3, 2, 0] ∧
      tree_shape 16 r root =
        .ok (Shape.node 5
          (Shape.node 3 (Shape.node 2 (Shape.node 1 Shape.leaf Shape.leaf) Shape.leaf)
            (Shape.node 4 (Shape.node 3 (Shape.node 2 (Shape.node 0 Shape.leaf Shape.leaf) Shape.leaf) Shape.leaf) Shape.leaf))
          Shape.leaf)) :=
  ⟨⟨_, _, rfl, rfl, rfl⟩, ⟨_, _, rfl, rfl, rfl⟩⟩

/-! ## Coherence through the disposal loop -/

theorem WF_coherent {r : repository T} (hwf : r.WF) : r.Coherent where
  counts_length := hwf.counts_length
  pointers_size := hwf.pointers_size
  memory_size := hwf.memory_size
  keys_sorted := by
    have := hwf.keys_sorted
    unfold List.Sorted at this
    rw [List.pairwise_map] at this
    exact this
  target_lt := hwf.target_lt
  target_mem := fun i a h => by
    obtain ⟨s, hs, hi⟩ := hwf.target_mem i a h
    exact ⟨s, map_find_mem hs, hi⟩
  alias_nonempty := hwf.alias_nonempty
  alias_target := hwf.alias_target

theorem map_find_of_mem {m : AliasMap} (hs : m.Pairwise fun e f => e.1 < f.1)
    {k : Nat} {s : Finset Nat} (h : (k, s) ∈ m) : map_find m k = some s := by
  induction m with
  | nil => cases h
  | cons e rest ih =>
    obtain ⟨k', t⟩ := e
    rw [List.pairwise_cons] at hs
    rcases List.mem_cons.mp h with heq | hmem
    · cases heq
      simp [map_find]
    · have hlt := hs.1 _ hmem
      have hne : ¬ k' = k := by simp only at hlt; omega
      simp only [map_find, hne, if_false]
      exact ih hs.2 hmem

theorem mem_unique_of_sorted {m : AliasMap} (hs : m.Pairwise fun e f => e.1 < f.1)
    {k : Nat} {s t : Finset Nat} (h1 : (k, s) ∈ m) (h2 : (k, t) ∈ m) : s = t := by
  have a := map_find_of_mem hs h1
  have b := map_find_of_mem hs h2
  rw [a] at b
  exact Option.some.inj b

theorem shift_set_erase (left : Nat) (t : Finset Nat) :
    shift_set left (t.erase left) = shift_set left t := by
  unfold shift_set
  congr 1
  · congr 1
    ext x
    simp only [Finset.mem_filter, Finset.mem_erase]
    constructor
    · rintro ⟨⟨-, h1⟩, h2⟩
      exact ⟨h1, h2⟩
    · rintro ⟨h1, h2⟩
      exact ⟨⟨by omega, h1⟩, h2⟩
  · ext x
    simp only [Finset.mem_filter, Finset.mem_erase]
    constructor
    · rintro ⟨⟨-, h1⟩, h2⟩
      exact ⟨h1, h2⟩
    · rintro ⟨h1, h2⟩
      exact ⟨⟨by omega, h1⟩, h2⟩

theorem shift_set_of_le (left : Nat) (t : Finset Nat) (h : ∀ x ∈ t, x ≤ left) :
    shift_set left t = t.erase left := by
  rw [← shift_set_erase]
  apply shift_set_of_lt
  intro x hx
  have h1 := h x (Finset.mem_of_mem_erase hx)
  have h2 := Finset.ne_of_mem_erase hx
  omega

theorem filterMap_shift_update (m : AliasMap) (a left : Nat) :
    (map_update m a fun t => t.erase left).filterMap
      (fun e => if shift_set left e.2 = ∅ then none else some (e.1, shift_set left e.2)) =
    m.filterMap
      (fun e => if shift_set left e.2 = ∅ then none else some (e.1, shift_set left e.2)) := by
  induction m with
  | nil => rfl
  | cons e rest ih =>
    obtain ⟨k, t⟩ := e
    by_cases hk : k = a
    · simp only [map_update, hk, if_true, List.filterMap_cons, shift_set_erase]
    · simp only [map_update, hk, if_false, List.filterMap_cons, ih]

/-- What one pass of the disposal loop does when it returns: the last strong pointer and
its counter are erased and `left` leaves every alias set; the value is disposed exactly
when `left` was its only alias. -/
theorem dispose_step_cases {r r3 : repository T} {left : Nat}
    (h : r.dispose_step left = .ok r3) :
    ∃ ref, r.strong_pointers[left]? = some ref ∧
      left < r.contiguous_memory_reference_count.length ∧
      ((r3 = { r with
          strong_pointers := r.strong_pointers.eraseIdx left
          contiguous_memory_reference_count :=
            r.contiguous_memory_reference_count.eraseIdx left
          contiguous_memory_to_multimap :=
            r.contiguous_memory_to_multimap.filterMap fun e =>
              if shift_set left e.2 = ∅ then none else some (e.1, shift_set left e.2) } ∧
        (ref = none ∨ ∃ a s, ref = some a ∧
          map_find r.contiguous_memory_to_multimap a = some s ∧ s.card ≠ 1)) ∨
       (∃ a s, ref = some a ∧ map_find r.contiguous_memory_to_multimap a = some s ∧
          s.card = 1 ∧ left ∈ s ∧
          ({ r with
            strong_pointers := r.strong_pointers.eraseIdx left
            contiguous_memory_reference_count :=
              r.contiguous_memory_reference_count.eraseIdx left
            contiguous_memory_to_multimap :=
              r.contiguous_memory_to_multimap.filterMap fun e =>
                if shift_set left e.2 = ∅ then none else some (e.1, shift_set left e.2) } :
            repository T).dispose_value a = .ok r3)) := by
  unfold repository.dispose_step at h
  cases href : vec_at r.strong_pointers left with
  | error e => simp [href, bind, Except.bind] at h
  | ok ref =>
    have hsome : r.strong_pointers[left]? = some ref := by
      unfold vec_at at href
      cases hx : r.strong_pointers[left]? with
      | none => simp [hx] at href
      | some y =>
        simp only [hx, Except.ok.injEq] at href
        rw [href]
    simp only [href, bind, Except.bind] at h
    refine ⟨ref, hsome, ?_⟩
    cases ref with
    | none =>
      simp only [repository.dispose_alias] at h
      cases hsp : r.dispose_strong_ponter left with
      | error e => simp [hsp] at h
      | ok r2 =>
        simp only [hsp, Bool.false_eq_true, if_false, pure, Except.pure,
          Except.ok.injEq] at h
        subst h
        have hlt := (dispose_strong_ponter_counts hsp).2
        unfold repository.dispose_strong_ponter at hsp
        split at hsp
        · simp only [pure, Except.pure, Except.ok.injEq] at hsp
          exact ⟨hlt, Or.inl ⟨hsp.symm, Or.inl rfl⟩⟩
        · cases hsp
    | some a =>
      simp only [repository.dispose_alias] at h
      cases hfind : map_find r.contiguous_memory_to_multimap a with
      | none => simp [hfind] at h
      | some s =>
        simp only [hfind] at h
        by_cases hbad : s.card = 1 ∧ left ∉ s
        · simp [hbad] at h
        · simp only [hbad, if_false] at h
          cases hsp : repository.dispose_strong_ponter
              { r with
                contiguous_memory_to_multimap :=
                  map_update r.contiguous_memory_to_multimap a fun t => t.erase left }
              left with
          | error e => simp [hsp] at h
          | ok r2 =>
            simp only [hsp] at h
            have hlt := (dispose_strong_ponter_counts hsp).2
            unfold repository.dispose_strong_ponter at hsp
            split at hsp
            · simp only [pure, Except.pure, Except.ok.injEq, filterMap_shift_update] at hsp
              refine ⟨hlt, ?_⟩
              by_cases hcard : s.card = 1
              · right
                have hmem : left ∈ s := by
                  by_contra hn
                  exact hbad ⟨hcard, hn⟩
                simp only [hcard, decide_True, if_true] at h
                rw [← hsp] at h
                exact ⟨a, s, rfl, hfind, hcard, hmem, h⟩
              · left
                simp only [hcard, decide_False, Bool.false_eq_true, if_false, pure,
                  Except.pure, Except.ok.injEq] at h
                rw [← h, ← hsp]
                exact ⟨rfl, Or.inr ⟨a, s, rfl, hfind, hcard⟩⟩
            · cases hsp

theorem coherent_member_lt {r : repository T} (hc : r.Coherent) {e : Nat × Finset Nat}
    (he : e ∈ r.contiguous_memory_to_multimap) {i : Nat} (hi : i ∈ e.2) :
    i < r.strong_pointers.length := by
  have h := hc.alias_target e he i hi
  by_contra hlt
  rw [List.getElem?_eq_none (Nat.le_of_not_lt hlt)] at h
  cases h

theorem mem_filterMap_shift {m : AliasMap} {left : Nat} {e : Nat × Finset Nat} :
    e ∈ m.filterMap
        (fun e => if shift_set left e.2 = ∅ then none else some (e.1, shift_set left e.2)) ↔
      ∃ t, (e.1, t) ∈ m ∧ e.2 = shift_set left t ∧ shift_set left t ≠ ∅ := by
  rw [List.mem_filterMap]
  constructor
  · rintro ⟨⟨k, t⟩, hmem, hf⟩
    by_cases hempty : shift_set left t = ∅
    · simp [hempty] at hf
    · simp only [hempty, if_false, Option.some.injEq] at hf
      subst hf
      exact ⟨t, hmem, rfl, hempty⟩
  · rintro ⟨t, hmem, h2, h3⟩
    refine ⟨(e.1, t), hmem, ?_⟩
    simp only [h3, if_false]
    rw [← h2]

/-- The repository after the last strong pointer and its counter are erased and the
alias sets are rebuilt is coherent. -/
theorem coherent_erase_last {r : repository T} (hc : r.Coherent) {left : Nat}
    (hlen : r.strong_pointers.length = left + 1) :
    ({ r with
        strong_pointers := r.strong_pointers.eraseIdx left
        contiguous_memory_reference_count :=
          r.contiguous_memory_reference_count.eraseIdx left
        contiguous_memory_to_multimap :=
          r.contiguous_memory_to_multimap.filterMap fun e =>
            if shift_set left e.2 = ∅ then none else some (e.1, shift_set left e.2) } :
      repository T).Coherent := by
  have hsp : ∀ i o, (r.strong_pointers.eraseIdx left)[i]? = some o →
      r.strong_pointers[i]? = some o ∧ i < left := by
    intro i o h
    have hi : i < left := by
      by_contra hn
      have : (r.strong_pointers.eraseIdx left).length ≤ i := by
        rw [List.length_eraseIdx]
        simp only [hlen, Nat.lt_succ_self, if_true]
        omega
      rw [List.getElem?_eq_none this] at h
      cases h
    rw [List.getElem?_eraseIdx_of_lt _ _ _ hi] at h
    exact ⟨h, hi⟩
  have hle : ∀ e ∈ r.contiguous_memory_to_multimap, ∀ i ∈ e.2, i ≤ left := by
    intro e he i hi
    have := coherent_member_lt hc he hi
    omega
  refine ⟨?_, ?_, hc.memory_size, ?_, ?_, ?_, ?_, ?_⟩
  · simp only [List.length_eraseIdx, hc.counts_length]
  · simp only [List.length_eraseIdx]
    have := hc.pointers_size
    split <;> omega
  · refine List.Pairwise.filterMap _ ?_ hc.keys_sorted
    intro a b hab x hx y hy
    simp only [Option.mem_def] at hx hy
    split at hx
    · cases hx
    · split at hy
      · cases hy
      · simp only [Option.some.injEq] at hx hy
        subst hx hy
        exact hab
  · intro i a h
    exact hc.target_lt i a (hsp i _ h).1
  · intro i a h
    obtain ⟨h1, hi⟩ := hsp i _ h
    obtain ⟨s, hs, his⟩ := hc.target_mem i a h1
    have hshift := shift_set_of_le left s (hle _ hs)
    have hmem : i ∈ shift_set left s := by
      rw [hshift]
      exact Finset.mem_erase.mpr ⟨by omega, his⟩
    refine ⟨shift_set left s, ?_, hmem⟩
    rw [mem_filterMap_shift]
    exact ⟨s, hs, rfl, Finset.ne_empty_of_mem hmem⟩
  · intro e he
    rw [mem_filterMap_shift] at he
    obtain ⟨t, -, h2, h3⟩ := he
    rw [h2]
    exact Finset.nonempty_iff_ne_empty.mpr h3
  · intro e he i hi
    rw [mem_filterMap_shift] at he
    obtain ⟨t, h1, h2, -⟩ := he
    rw [h2, shift_set_of_le left t (hle _ h1)] at hi
    have hne := Finset.ne_of_mem_erase hi
    have hit := Finset.mem_of_mem_erase hi
    have htarget := hc.alias_target _ h1 i hit
    have hlt := coherent_member_lt hc h1 hit
    simp only
    rw [List.getElem?_eraseIdx_of_lt _ _ _ (by omega)]
    exact htarget

theorem map_insert_append (m : AliasMap) (e : Nat × Finset Nat)
    (h : ∀ f ∈ m, f.1 < e.1) : map_insert m e = m ++ [e] := by
  induction m with
  | nil => rfl
  | cons f rest ih =>
    obtain ⟨k, t⟩ := f
    have hk : k < e.1 := h (k, t) (List.mem_cons_self _ _)
    have h1 : ¬ e.1 < k := by omega
    have h2 : ¬ e.1 = k := by omega
    simp [map_insert, h1, h2, ih (fun f hf => h f (List.mem_cons_of_mem _ hf))]

theorem foldl_map_insert (l : AliasMap) :
    ∀ m : AliasMap, (m ++ l).Pairwise (fun e f => e.1 < f.1) →
      l.foldl map_insert m = m ++ l := by
  induction l with
  | nil => intro m _; simp
  | cons e rest ih =>
    intro m h
    have hm : ∀ f ∈ m, f.1 < e.1 := by
      intro f hf
      rw [List.pairwise_append] at h
      exact h.2.2 f hf e (List.mem_cons_self _ _)
    rw [List.foldl_cons, map_insert_append m e hm, ih (m ++ [e])]
    · simp
    · simpa using h

theorem mem_foldr_union (l : AliasMap) (i : Nat) :
    i ∈ l.foldr (fun e acc => e.2 ∪ acc) (∅ : Finset Nat) ↔ ∃ e ∈ l, i ∈ e.2 := by
  induction l with
  | nil => simp
  | cons e rest ih =>
    simp only [List.foldr_cons, Finset.mem_union, ih, List.mem_cons, exists_eq_or_imp]

theorem getElem?_enum_map {α β : Type} (l : List α) (g : Nat × α → β) (i : Nat) :
    (l.enum.map g)[i]? = l[i]?.map fun o => g (i, o) := by
  rw [List.getElem?_map, List.getElem?_enum]
  cases l[i]? <;> rfl

/-- The method `resolvePointer` in terms of optional indexing. -/
theorem resolvePointer_eq (r : repository T) (i : Nat) :
    r.resolvePointer i = .ok
      (match r.strong_pointers[i]? with
       | some (some a) => r.contiguous_memory[a]?
       | _ => none) := by
  by_cases hi : i < r.strong_pointers.length
  · rw [resolvePointer_of_lt r i hi, List.getElem?_eq_getElem hi]
    cases r.strong_pointers[i] <;> rfl
  · rw [resolvePointer_of_le r i (by omega), List.getElem?_eq_none (by omega)]

/-- What `dispose_value` does when it returns. -/
theorem dispose_value_ok {r r3 : repository T} {pos : Nat}
    (h : r.dispose_value pos = .ok r3) :
    pos < r.contiguous_memory.length ∧
    r3 = { r with
      contiguous_memory := r.contiguous_memory.eraseIdx pos
      strong_pointers :=
        r.strong_pointers.enum.map fun p =>
          if p.1 ∈ (((r.contiguous_memory_to_multimap.filter fun e => e.1 ≠ pos).filter
              fun e => pos < e.1).foldr (fun e acc => e.2 ∪ acc) (∅ : Finset Nat))
          then p.2.map size_dec else p.2
      contiguous_memory_to_multimap :=
        (((r.contiguous_memory_to_multimap.filter fun e => e.1 ≠ pos).filter
            fun e => pos < e.1).map fun e => (e.1 - 1, e.2)).foldl map_insert
          ((r.contiguous_memory_to_multimap.filter fun e => e.1 ≠ pos).filter
            fun e => ¬ pos < e.1) } := by
  unfold repository.dispose_value at h
  cases hc : vec_index r.contiguous_memory_reference_count pos with
  | error e => simp [hc, bind, Except.bind] at h
  | ok c =>
    simp only [hc, bind, Except.bind] at h
    split at h
    · cases h
    · split at h
      · cases h
      · rename_i hpos
        split at h
        · cases h
        · split at h
          · cases h
          · simp only [pure, Except.pure, Except.ok.injEq] at h
            simp only [not_not] at hpos
            exact ⟨hpos, h.symm⟩

theorem coherent_no_key {r : repository T} (hc : r.Coherent) {a : Nat}
    (hno : ∀ i : Nat, r.strong_pointers[i]? ≠ some (some a)) :
    ∀ e ∈ r.contiguous_memory_to_multimap, e.1 ≠ a := by
  intro e he hea
  obtain ⟨i, hi⟩ := hc.alias_nonempty e he
  have := hc.alias_target e he i hi
  rw [hea] at this
  exact hno i this

/-- The alias map built by `dispose_value`: the entries below `pos` followed by the
entries above `pos` with their keys decreased. -/
theorem rekeyed_sorted {m : AliasMap} (hs : m.Pairwise fun e f => e.1 < f.1) (a : Nat)
    (hk : ∀ e ∈ m, e.1 ≠ a) :
    List.Pairwise (fun e f : Nat × Finset Nat => e.1 < f.1)
      ((m.filter fun e : Nat × Finset Nat => ¬ a < e.1) ++
        (m.filter fun e : Nat × Finset Nat => a < e.1).map
          fun e : Nat × Finset Nat => (e.1 - 1, e.2)) := by
  rw [List.pairwise_append]
  refine ⟨hs.filter _, ?_, ?_⟩
  · rw [List.pairwise_map]
    refine List.Pairwise.imp_of_mem ?_ (hs.filter _)
    intro e f he hf hef
    have h1 : a < e.1 := by simpa using (List.mem_filter.mp he).2
    have h2 : a < f.1 := by simpa using (List.mem_filter.mp hf).2
    simp only
    omega
  · intro e he f hf
    have h1 : ¬ a < e.1 := by simpa using (List.mem_filter.mp he).2
    have h0 := hk e (List.mem_filter.mp he).1
    obtain ⟨g, hg, rfl⟩ := List.mem_map.mp hf
    have h2 : a < g.1 := by simpa using (List.mem_filter.mp hg).2
    show e.1 < g.1 - 1
    omega

theorem mem_rekeyed {m : AliasMap} {a : Nat} (hk : ∀ e ∈ m, e.1 ≠ a) {e : Nat × Finset Nat} :
    e ∈ (m.filter fun e : Nat × Finset Nat => ¬ a < e.1) ++
        (m.filter fun e : Nat × Finset Nat => a < e.1).map
          (fun e : Nat × Finset Nat => (e.1 - 1, e.2)) ↔
      (e ∈ m ∧ e.1 < a) ∨ ∃ g ∈ m, a < g.1 ∧ e = (g.1 - 1, g.2) := by
  rw [List.mem_append, List.mem_filter, List.mem_map]
  constructor
  · rintro (⟨h1, h2⟩ | ⟨g, hg, rfl⟩)
    · left
      have h3 : ¬ a < e.1 := by simpa using h2
      have := hk e h1
      exact ⟨h1, by omega⟩
    · right
      rw [List.mem_filter] at hg
      exact ⟨g, hg.1, by simpa using hg.2, rfl⟩
  · rintro (⟨h1, h2⟩ | ⟨g, hg, h3, rfl⟩)
    · left
      refine ⟨h1, ?_⟩
      have : ¬ a < e.1 := by omega
      simpa using this
    · right
      exact ⟨g, List.mem_filter.mpr ⟨hg, by simpa using h3⟩, rfl⟩

/-- The method `dispose_value` on a coherent repository in which no strong pointer
targets `a`: the repository it returns is coherent, the counters and the pending set are
unchanged, and every strong pointer resolves as before. -/
theorem dispose_value_coherent {r r3 : repository T} {a : Nat} (hc : r.Coherent)
    (hno : ∀ i : Nat, r.strong_pointers[i]? ≠ some (some a))
    (h : r.dispose_value a = .ok r3) :
    r3.Coherent ∧
    r3.contiguous_memory_reference_count = r.contiguous_memory_reference_count ∧
    r3.strong_pointers.length = r.strong_pointers.length ∧
    r3.toDispose = r.toDispose ∧
    r3.contiguous_memory.length + 1 = r.contiguous_memory.length ∧
    ∀ i, r3.resolvePointer i = r.resolvePointer i := by
  obtain ⟨hpos, hr3⟩ := dispose_value_ok h
  have hkeys := coherent_no_key hc hno
  have hfilter : (r.contiguous_memory_to_multimap.filter fun e => e.1 ≠ a) =
      r.contiguous_memory_to_multimap :=
    List.filter_eq_self.mpr (fun e he => by simpa using hkeys e he)
  rw [hfilter, foldl_map_insert _ _ (rekeyed_sorted hc.keys_sorted a hkeys)] at hr3
  -- membership in `toInsert`
  have hins : ∀ i, i ∈ ((r.contiguous_memory_to_multimap.filter fun e => a < e.1).foldr
      (fun e acc => e.2 ∪ acc) (∅ : Finset Nat)) ↔
      ∃ k, a < k ∧ r.strong_pointers[i]? = some (some k) := by
    intro i
    rw [mem_foldr_union]
    constructor
    · rintro ⟨e, he, hi⟩
      rw [List.mem_filter] at he
      exact ⟨e.1, by simpa using he.2, hc.alias_target e he.1 i hi⟩
    · rintro ⟨k, hk, hi⟩
      obtain ⟨s, hs, his⟩ := hc.target_mem i k hi
      exact ⟨(k, s), List.mem_filter.mpr ⟨hs, by simpa using hk⟩, his⟩
  -- the new strong pointers
  have hsp : ∀ i : Nat, r3.strong_pointers[i]? =
      (r.strong_pointers[i]?).map
        fun o : Option Nat => o.map fun k => if a < k then k - 1 else k := by
    intro i
    rw [hr3]
    simp only
    rw [getElem?_enum_map]
    cases hi : r.strong_pointers[i]? with
    | none => rfl
    | some o =>
      simp only [Option.map_some', Option.some.injEq]
      cases o with
      | none => simp
      | some k =>
        by_cases hk : a < k
        · have hmem := (hins i).mpr ⟨k, hk, hi⟩
          have hklt := hc.target_lt i k hi
          have hsize := hc.memory_size
          simp only [hmem, if_true, Option.map_some', hk,
            size_dec_of_pos k (by omega) (by omega)]
        · have hnot : ¬ i ∈ ((r.contiguous_memory_to_multimap.filter fun e => a < e.1).foldr
              (fun e acc => e.2 ∪ acc) (∅ : Finset Nat)) := by
            intro hmem
            obtain ⟨k2, hk2, hi2⟩ := (hins i).mp hmem
            rw [hi] at hi2
            simp only [Option.some.injEq] at hi2
            omega
          simp only [hnot, if_false, Option.map_some', hk]
  have hspk : ∀ i c : Nat, r3.strong_pointers[i]? = some (some c) →
      ∃ k, r.strong_pointers[i]? = some (some k) ∧ k ≠ a ∧
        c = if a < k then k - 1 else k := by
    intro i c hi
    rw [hsp] at hi
    cases hold : r.strong_pointers[i]? with
    | none => simp [hold] at hi
    | some o =>
      cases o with
      | none => simp [hold] at hi
      | some k =>
        simp only [hold, Option.map_some', Option.some.injEq] at hi
        refine ⟨k, rfl, ?_, hi.symm⟩
        intro hka
        exact hno i (by rw [hold, hka])
  have hmem3 : r3.contiguous_memory = r.contiguous_memory.eraseIdx a := by rw [hr3]
  have hmap3 : r3.contiguous_memory_to_multimap =
      (r.contiguous_memory_to_multimap.filter fun e => ¬ a < e.1) ++
      (r.contiguous_memory_to_multimap.filter fun e => a < e.1).map
        fun e => (e.1 - 1, e.2) := by rw [hr3]
  have hlen3 : r3.contiguous_memory.length + 1 = r.contiguous_memory.length := by
    rw [hmem3, List.length_eraseIdx]
    simp only [hpos, if_true]
    omega
  have hsplen : r3.strong_pointers.length = r.strong_pointers.length := by
    rw [hr3]
    simp
  refine ⟨⟨?_, ?_, ?_, ?_, ?_, ?_, ?_, ?_⟩, by rw [hr3], hsplen, by rw [hr3], hlen3, ?_⟩
  · rw [hsplen, ← hc.counts_length, hr3]
  · rw [hsplen]
    exact hc.pointers_size
  · have := hc.memory_size
    omega
  · rw [hmap3]
    exact rekeyed_sorted hc.keys_sorted a hkeys
  · intro i c hi
    obtain ⟨k, hk, hka, hck⟩ := hspk i c hi
    have hklt := hc.target_lt i k hk
    split at hck <;> omega
  · intro i c hi
    obtain ⟨k, hk, hka, hck⟩ := hspk i c hi
    obtain ⟨s, hs, his⟩ := hc.target_mem i k hk
    refine ⟨s, ?_, his⟩
    rw [hmap3, mem_rekeyed hkeys]
    by_cases hak : a < k
    · right
      rw [if_pos hak] at hck
      exact ⟨(k, s), hs, hak, by rw [hck]⟩
    · left
      rw [if_neg hak] at hck
      rw [hck]
      exact ⟨hs, by omega⟩
  · intro e he
    rw [hmap3, mem_rekeyed hkeys] at he
    rcases he with ⟨h1, -⟩ | ⟨g, hg, -, rfl⟩
    · exact hc.alias_nonempty e h1
    · exact hc.alias_nonempty g hg
  · intro e he i hi
    rw [hmap3, mem_rekeyed hkeys] at he
    rw [hsp]
    rcases he with ⟨h1, h2⟩ | ⟨g, hg, h2, rfl⟩
    · rw [hc.alias_target e h1 i hi]
      have : ¬ a < e.1 := by omega
      simp [this]
    · rw [hc.alias_target g hg i hi]
      simp [h2]
  · intro i
    rw [resolvePointer_eq, resolvePointer_eq, hsp, hmem3]
    cases hold : r.strong_pointers[i]? with
    | none => rfl
    | some o =>
      cases o with
      | none => rfl
      | some k =>
        have hka : k ≠ a := by
          intro hka
          exact hno i (by rw [hold, hka])
        simp only [Option.map_some']
        by_cases hak : a < k
        · simp only [hak, if_true]
          rw [List.getElem?_eraseIdx_of_ge _ _ _ (by omega)]
          have : k - 1 + 1 = k := by omega
          rw [this]
        · simp only [hak, if_false]
          rw [List.getElem?_eraseIdx_of_lt _ _ _ (by omega)]

/-- One pass of the disposal loop on a coherent repository: the repository it returns is
coherent, has lost exactly its last strong pointer, and every other strong pointer keeps
its counter and resolves as before. -/
theorem dispose_step_coherent {r r3 : repository T} (hc : r.Coherent)
    (hstep : r.dispose_step (size_dec r.strong_pointers.length) = .ok r3) :
    r3.Coherent ∧ r3.strong_pointers.length + 1 = r.strong_pointers.length ∧
    r3.toDispose = r.toDispose ∧
    ∀ k, k < r3.strong_pointers.length →
      r3.contiguous_memory_reference_count[k]? = r.contiguous_memory_reference_count[k]? ∧
      r3.resolvePointer k = r.resolvePointer k := by
  have hlen3 := dispose_step_length hstep
  have htd := (dispose_step_memory_length hstep).2.2.1
  have hpos : 0 < r.strong_pointers.length := by omega
  have hdec := size_dec_of_pos _ hpos hc.pointers_size.le
  have hlen : r.strong_pointers.length = size_dec r.strong_pointers.length + 1 := by omega
  obtain ⟨ref, href, hrc, hcases⟩ := dispose_step_cases hstep
  have hc2 := coherent_erase_last hc hlen
  -- the frame of the erasure of the last strong pointer
  have hframe : ∀ k, k < size_dec r.strong_pointers.length →
      (r.contiguous_memory_reference_count.eraseIdx (size_dec r.strong_pointers.length))[k]? =
        r.contiguous_memory_reference_count[k]? ∧
      (r.strong_pointers.eraseIdx (size_dec r.strong_pointers.length))[k]? =
        r.strong_pointers[k]? := by
    intro k hk
    exact ⟨List.getElem?_eraseIdx_of_lt _ _ _ hk, List.getElem?_eraseIdx_of_lt _ _ _ hk⟩
  rcases hcases with ⟨hr3, -⟩ | ⟨a, s, hrefa, hfind, hcard, hmem, hval⟩
  · refine ⟨by rw [hr3]; exact hc2, hlen3, htd, ?_⟩
    intro k hk
    have hk2 : k < size_dec r.strong_pointers.length := by omega
    rw [resolvePointer_eq, resolvePointer_eq, hr3]
    simp only
    rw [(hframe k hk2).1, (hframe k hk2).2]
    exact ⟨rfl, rfl⟩
  · have hs : s = {size_dec r.strong_pointers.length} := by
      obtain ⟨y, hy⟩ := Finset.card_eq_one.mp hcard
      rw [hy] at hmem ⊢
      rw [Finset.mem_singleton.mp hmem]
    have hno : ∀ i : Nat,
        (r.strong_pointers.eraseIdx (size_dec r.strong_pointers.length))[i]? ≠
          some (some a) := by
      intro i hi
      have hi2 : i < size_dec r.strong_pointers.length := by
        by_contra hn
        have : (r.strong_pointers.eraseIdx (size_dec r.strong_pointers.length)).length ≤ i := by
          rw [List.length_eraseIdx]
          split <;> omega
        rw [List.getElem?_eq_none this] at hi
        cases hi
      rw [(hframe i hi2).2] at hi
      obtain ⟨t, ht, hit⟩ := hc.target_mem i a hi
      have hts := mem_unique_of_sorted hc.keys_sorted ht (map_find_mem hfind)
      rw [hts, hs, Finset.mem_singleton] at hit
      omega
    obtain ⟨hc3, hcount3, hsplen3, -, -, hres3⟩ := dispose_value_coherent hc2 hno hval
    refine ⟨hc3, hlen3, htd, ?_⟩
    intro k hk
    have hk2 : k < size_dec r.strong_pointers.length := by omega
    rw [hcount3, hres3, resolvePointer_eq, resolvePointer_eq]
    simp only
    rw [(hframe k hk2).1, (hframe k hk2).2]
    exact ⟨rfl, rfl⟩

theorem coherent_of_toDispose {r : repository T} (hc : r.Coherent) (td : Finset Nat) :
    ({ r with toDispose := td } : repository T).Coherent :=
  ⟨hc.counts_length, hc.pointers_size, hc.memory_size, hc.keys_sorted,
    hc.target_lt, hc.target_mem, hc.alias_nonempty, hc.alias_target⟩

/-- The disposal loop on a coherent repository: when it returns, the repository is
coherent, the table is a prefix of what it was, and the strong pointers that remain keep
their counters and resolve as before. -/
theorem dispose_loop_frame (fuel : Nat) :
    ∀ r r1 : repository T, r.Coherent → r.dispose_loop fuel = .ok r1 →
      r1.Coherent ∧ r1.strong_pointers.length ≤ r.strong_pointers.length ∧
      ∀ k, k < r1.strong_pointers.length →
        r1.contiguous_memory_reference_count[k]? = r.contiguous_memory_reference_count[k]? ∧
        r1.resolvePointer k = r.resolvePointer k := by
  induction fuel with
  | zero => intro r r1 _ h; simp [repository.dispose_loop] at h
  | succ n ih =>
    intro r r1 hc h
    rw [dispose_loop_succ] at h
    split at h
    · cases hstep : r.dispose_step (size_dec r.strong_pointers.length) with
      | error e => simp [hstep, Except.bind] at h
      | ok r3 =>
        simp only [hstep, Except.bind] at h
        obtain ⟨hc3, hlen3, -, hframe3⟩ := dispose_step_coherent hc hstep
        obtain ⟨hc1, hlen1, hframe1⟩ := ih _ r1 (coherent_of_toDispose hc3 _) h
        simp only at hlen1 hframe1
        refine ⟨hc1, by omega, ?_⟩
        intro k hk
        obtain ⟨f1, f2⟩ := hframe1 k hk
        obtain ⟨g1, g2⟩ := hframe3 k (by omega)
        rw [f1, g1]
        refine ⟨rfl, ?_⟩
        rw [f2, ← g2]
        simp only [resolvePointer_eq]
    · simp only [Except.ok.injEq] at h
      subst h
      exact ⟨hc, le_refl _, fun k _ => ⟨rfl, rfl⟩⟩

theorem crossed_repository_WF : crossed_repository.WF where
  counts_length := rfl
  pointers_size := by simp [crossed_repository, SIZE_MOD]
  memory_size := by simp [crossed_repository, SIZE_MOD]
  counts_size := by simp [crossed_repository, SIZE_MOD]
  keys_sorted := by simp [crossed_repository]
  target_lt := by
    intro i a h
    rcases i with _ | _ | i <;> simp [crossed_repository] at h ⊢ <;> omega
  target_mem := by
    intro i a h
    rcases i with _ | _ | i <;> simp [crossed_repository] at h <;> subst h <;>
      simp [crossed_repository, map_find]
  alias_nonempty := by simp [crossed_repository]
  alias_target := by simp [crossed_repository]
  pending_lt := by simp [crossed_repository]

/-- C18: on a well-formed repository, `attempt_dispose_element(x)` on a strong pointer
that is not the last one only adds `x` to the pending set; and whenever
`attempt_dispose_element(x)` returns, the table it leaves is a prefix of the table before
(only strong pointers at the tail are removed), every strong pointer that remains has the
counter it had and resolves to what it resolved to, also when a value in the middle of the
contiguous memory was removed and targets and keys above it moved down by one, and the
repository is coherent. The call does not return when the check of `dispose_value` on the
counter fails. -/
theorem attempt_dispose_element_frame (r : repository T) (hwf : r.WF) (x : Nat) :
    (x + 1 < r.strong_pointers.length →
      r.attempt_dispose_element x = .ok { r with toDispose := insert x r.toDispose }) ∧
    ∀ r1, r.attempt_dispose_element x = .ok r1 →
      r1.Coherent ∧ r1.strong_pointers.length ≤ r.strong_pointers.length ∧
      ∀ k, k < r1.strong_pointers.length →
        r1.contiguous_memory_reference_count[k]? = r.contiguous_memory_reference_count[k]? ∧
        r1.resolvePointer k = r.resolvePointer k := by
  refine ⟨fun hx => attempt_dispose_element_of_pending_lt r x hwf.pointers_size hx
    hwf.pending_lt, ?_⟩
  intro r1 h
  obtain ⟨h1, h2, h3⟩ := dispose_loop_frame _ _ r1
    (coherent_of_toDispose (WF_coherent hwf) (insert x r.toDispose)) h
  refine ⟨h1, h2, ?_⟩
  intro k hk
  obtain ⟨f1, f2⟩ := h3 k hk
  refine ⟨f1, ?_⟩
  rw [f2]
  simp only [resolvePointer_eq]

/-- Witness of C18 on `crossed_repository`: `attempt_dispose_element(1)` removes strong
pointer 1 and the first value; strong pointer 0 had target 1 and resolved to 8, has target
0 afterwards and still resolves to 8, with the same counter. -/
theorem attempt_dispose_element_frame_witness :
    ∃ r1, crossed_repository.attempt_dispose_element 1 = .ok r1 ∧
      r1.contiguous_memory = [8] ∧ r1.strong_pointers = [some 0] ∧
      crossed_repository.resolvePointer 0 = .ok (some 8) ∧
      r1.resolvePointer 0 = .ok (some 8) ∧
      r1.contiguous_memory_reference_count[0]? = some 0 := by
  have hrun : crossed_repository.attempt_dispose_element 1 =
      .ok ⟨[8], [0], [some 0], [(0, {0})], ∅⟩ := rfl
  obtain ⟨-, -, h3⟩ :=
    (attempt_dispose_element_frame crossed_repository crossed_repository_WF 1).2 _ hrun
  obtain ⟨f1, f2⟩ := h3 0 (by decide)
  exact ⟨_, hrun, rfl, rfl, rfl, f2.trans rfl, f1.trans rfl⟩

/-! ## `setGlobal` on a strong pointer that is not the last one -/

theorem map_find_emplace_of_find {m : AliasMap} (hs : m.Pairwise fun e f => e.1 < f.1)
    {k : Nat} {s : Finset Nat} (x : Nat) (h : map_find m k = some s) :
    map_find (map_emplace m k x) k = some (insert x s) ∧
    (map_emplace m k x).map Prod.fst = m.map Prod.fst := by
  induction m with
  | nil => simp [map_find] at h
  | cons e rest ih =>
    obtain ⟨k', t⟩ := e
    rw [List.pairwise_cons] at hs
    by_cases h1 : k < k'
    · exfalso
      rcases List.mem_cons.mp (map_find_mem h) with heq | hmem
      · cases heq
        omega
      · have := hs.1 _ hmem
        simp only at this
        omega
    · by_cases h2 : k = k'
      · subst h2
        simp only [map_find, if_true] at h
        cases h
        simp [map_emplace, map_find]
      · have h3 : ¬ k' = k := fun h' => h2 h'.symm
        simp only [map_find, h3, if_false] at h
        obtain ⟨i1, i2⟩ := ih hs.2 h
        simp [map_emplace, h1, h2, map_find, h3, i1, i2]

/-- C21: on a well-formed repository, for strong pointers `left` and `right` inside the
table with `left` not the last one, `setGlobal(left, right)` returns; the table keeps its
length, the contiguous memory and every counter are unchanged, the pending set is the one
before without `left`, strong pointer `left` gets the target of `right` and every other
strong pointer keeps its target; the alias map keeps its keys, when `right` has a target
`left` is inserted into the alias set of that target and every other alias set is
unchanged, and when `right` is null the alias map is unchanged. -/
theorem setGlobal_frame (r : repository T) (hwf : r.WF) (left right : Nat)
    (hleft : left + 1 < r.strong_pointers.length)
    (hright : right < r.strong_pointers.length) :
    ∃ r1, r.setGlobal left right = .ok r1 ∧
      r1.strong_pointers.length = r.strong_pointers.length ∧
      r1.contiguous_memory = r.contiguous_memory ∧
      r1.contiguous_memory_reference_count = r.contiguous_memory_reference_count ∧
      r1.toDispose = r.toDispose.erase left ∧
      r1.strong_pointers[left]? = r.strong_pointers[right]? ∧
      (∀ k : Nat, k ≠ left → r1.strong_pointers[k]? = r.strong_pointers[k]?) ∧
      r1.contiguous_memory_to_multimap.map Prod.fst =
        r.contiguous_memory_to_multimap.map Prod.fst ∧
      (∀ a : Nat, r.strong_pointers[right]? = some (some a) →
        ∃ s, map_find r.contiguous_memory_to_multimap a = some s ∧
          map_find r1.contiguous_memory_to_multimap a = some (insert left s) ∧
          ∀ k : Nat, k ≠ a → map_find r1.contiguous_memory_to_multimap k =
            map_find r.contiguous_memory_to_multimap k) ∧
      (r.strong_pointers[right]? = some none →
        r1.contiguous_memory_to_multimap = r.contiguous_memory_to_multimap) := by
  have hget : r.strong_pointers[right]? = some r.strong_pointers[right] :=
    List.getElem?_eq_getElem hright
  have hrun := setGlobal_not_last r left right _ hwf.pointers_size.le hleft hget
    hwf.pending_lt
  have hsorted : r.contiguous_memory_to_multimap.Pairwise fun e f => e.1 < f.1 :=
    (WF_coherent hwf).keys_sorted
  have hl : left < r.strong_pointers.length := by omega
  refine ⟨_, hrun, by simp, rfl, rfl, rfl, ?_, ?_, ?_, ?_, ?_⟩
  · simp [hl, hget]
  · intro k hk
    simp [List.getElem?_set, Ne.symm hk]
  · cases hv : r.strong_pointers[right] with
    | none => simp
    | some a =>
      obtain ⟨s, hs, -⟩ := hwf.target_mem right a (by rw [hget, hv])
      simpa using (map_find_emplace_of_find hsorted left hs).2
  · intro a ha
    rw [hget] at ha
    have hv : r.strong_pointers[right] = some a := Option.some.inj ha
    obtain ⟨s, hs, -⟩ := hwf.target_mem right a (by rw [hget, hv])
    refine ⟨s, hs, ?_, ?_⟩
    · simpa [hv] using (map_find_emplace_of_find hsorted left hs).1
    · intro k hk
      simpa [hv] using map_find_emplace_ne r.contiguous_memory_to_multimap a left k hk
  · intro hn
    rw [hget] at hn
    have hv : r.strong_pointers[right] = none := Option.some.inj hn
    simp [hv]

/-- Witness of C21 on `sample_repository`: `setGlobal(0, 1)` makes strong pointer 0 point
to the second value and inserts 0 into the alias set of that value; the table keeps its
three strong pointers, the contiguous memory and the counters are as before, the alias
set of the first value still holds 0, and 0 leaves the pending set. -/
theorem setGlobal_frame_witness :
    ∃ r1, sample_repository.setGlobal 0 1 = .ok r1 ∧
      r1.strong_pointers.length = 3 ∧
      r1.contiguous_memory = [5, 5] ∧
      r1.contiguous_memory_reference_count = [0, 1, 1] ∧
      r1.toDispose = ∅ ∧
      r1.strong_pointers[0]? = some (some 1) ∧
      r1.strong_pointers[1]? = some (some 1) ∧
      map_find r1.contiguous_memory_to_multimap 1 = some {0, 1} ∧
      map_find r1.contiguous_memory_to_multimap 0 = some {0} := by
  obtain ⟨r1, h1, h2, h3, h4, h5, h6, h7, -, h9, -⟩ :=
    setGlobal_frame sample_repository sample_repository_WF 0 1 (by decide) (by decide)
  obtain ⟨s, hs, hins, hother⟩ := h9 1 rfl
  have hs1 : s = {1} := (Option.some.inj hs).symm
  subst hs1
  exact ⟨r1, h1, h2.trans rfl, h3.trans rfl, h4.trans rfl, h5.trans rfl, h6.trans rfl,
    (h7 1 (by decide)).trans rfl, hins.trans rfl, (hother 0 (by decide)).trans rfl⟩

/-! ## A disposal loop that stops at its second pass -/

/-- C20 (the code departs from the claim): after `n = new_null_pointer()`,
`a = new_element(1)`, `b = new_element(2)` and the drop of `a`, strong pointer 1 is pending
and every pending strong pointer is inside the table. The drop of `b` calls
`attempt_dispose_element(2)`: the first pass removes strong pointer 2 and the value 2, the
second pass is on strong pointer 1, now the last one, and does not return: `dispose_value(0)`
runs `assert(contiguous_memory_reference_count[pos] == 0)` with the offset `pos = 0` and
reads the counter 1 of the live handle `n`. The loop neither reaches its end nor removes
the pending strong pointer 1. -/
theorem disposal_loop_aborts_at_second_pass :
    ∃ r4 b,
      (do
        let (r1, _) ← (repository.empty : repository Nat).new_null_pointer
        let (r2, a) ← r1.new_element 1
        let (r3, b) ← r2.new_element 2
        let r4 ← weak_pointer.dtor r3 a
        pure (r4, b)) = .ok (r4, b) ∧
      b.strong_ptr_pos = 2 ∧
      r4 = ⟨[1, 2], [1, 0, 1], [none, some 0, some 1], [(0, {1}), (1, {2})], {1}⟩ ∧
      (∀ p ∈ r4.toDispose, p < r4.strong_pointers.length) ∧
      weak_pointer.dtor r4 b =
        ({ r4 with contiguous_memory_reference_count := [1, 0, 0] } :
          repository Nat).attempt_dispose_element 2 ∧
      ({ r4 with contiguous_memory_reference_count := [1, 0, 0] } :
        repository Nat).attempt_dispose_element 2 = .error .assertion ∧
      (⟨[1, 2], [1, 0, 0], [none, some 0, some 1], [(0, {1}), (1, {2})], {1, 2}⟩ :
        repository Nat).dispose_step 2 =
          .ok ⟨[1], [1, 0], [none, some 0], [(0, {1})], {1, 2}⟩ ∧
      (⟨[1], [1, 0], [none, some 0], [(0, {1})], {1}⟩ :
        repository Nat).dispose_step 1 = .error .assertion ∧
      ((⟨[1], [1, 0], [none, some 0], [(0, {1})], {1}⟩ :
        repository Nat).dispose_alias 1 (some 0)).bind
          (fun p => p.1.dispose_strong_ponter 1) = .ok ⟨[1], [1], [none], [], {1}⟩ ∧
      (⟨[1], [1], [none], [], {1}⟩ : repository Nat).dispose_value 0 = .error .assertion :=
  ⟨_, _, rfl, rfl, rfl, by decide, rfl, rfl, rfl, rfl, rfl, rfl⟩

end DynamicMemory
